import Mathlib

/-!
# Verification of the pycspr CL-value codec fragment

Shallow embedding of `src/pycspr/codec/byte_array/utils.py` together with a
model of the CL typed binary codec described by the repository's design
documentation (the codec proper is not part of the visible sources, so its
definitions below are modelled from the spec).  Machine integers are
represented as `Nat`/`Int` with explicit `% 2 ^ w` where overflow matters;
fallible operations return `Except`.
-/

namespace Pycspr

/-- The codec error kinds (spec §7).  `ValueError` additionally models the
CPython exception raised when `int()` cannot parse its argument. -/
inductive CLErr where
  | BufferUnderflow
  | InvalidTag
  | InvalidLength
  | IntegerOverflow
  | TypeMismatch
  | MalformedUTF8
  | ExcessiveNestingDepth
  | ValueError
deriving DecidableEq, Repr

/-! ## Embedding of `src/pycspr/codec/byte_array/utils.py` -/

/-- Domain of CPython `x.to_bytes(length, "little", signed=signed)`:
for unsigned conversion `0 ≤ x < 2^(8·length)`, for signed conversion
`-2^(8·length-1) ≤ x < 2^(8·length-1)` (with only `0` convertible to zero
bytes).  Outside this domain CPython raises `OverflowError`. -/
def fitsWidth (x : Int) (length : Nat) (signed : Bool) : Bool :=
  if signed then
    if length = 0 then x == 0
    else decide (-(2 ^ (8 * length - 1) : Int) ≤ x) && decide (x < 2 ^ (8 * length - 1))
  else
    decide (0 ≤ x) && decide (x < 2 ^ (8 * length))

/-- CPython `x.to_bytes(length, "little", signed=signed)`: the little-endian
bytes of the two's-complement residue `x mod 2^(8·length)`; raises
`OverflowError` (the spec's `IntegerOverflow` kind) when `x` is out of range. -/
def toBytesPy (x : Int) (length : Nat) (signed : Bool) : Except CLErr (List Nat) :=
  if fitsWidth x length signed then
    .ok ((List.range length).map (fun i => (x % (2 ^ (8 * length) : Int)).toNat / 2 ^ (8 * i) % 256))
  else
    .error .IntegerOverflow

/-- The Python scalars relevant to `int_to_le_bytes`: an `int`, or a non-`int`
value accepted by the `int()` constructor, modelled by decimal strings
(floats are floating point and outside the shallow embedding). -/
inductive PyScalar where
  | pyint (n : Int)
  | pystr (s : List Char)
deriving DecidableEq

/-- Decimal digit accumulation used by the `int()` model. -/
def parseDigits : List Char → Nat → Option Nat
  | [], acc => some acc
  | c :: rest, acc =>
      if c.isDigit then parseDigits rest (acc * 10 + (c.toNat - 48)) else none

/-- CPython `int(s)` on a string: optional sign followed by at least one
decimal digit (whitespace/underscore forms are not modelled); `none` models
the `ValueError` raised on anything else. -/
def pyIntOfStr : List Char → Option Int
  | [] => none
  | c :: rest =>
      if c = '-' then
        match rest with
        | [] => none
        | _ => (parseDigits rest 0).map (fun n => -(n : Int))
      else if c = '+' then
        match rest with
        | [] => none
        | _ => (parseDigits rest 0).map (fun n => (n : Int))
      else
        (parseDigits (c :: rest) 0).map (fun n => (n : Int))

/-- The coercion performed by `int_to_le_bytes`: a value that already is an
`int` is kept, anything else goes through `int()`. -/
def py_int : PyScalar → Option Int
  | .pyint n => some n
  | .pystr s => pyIntOfStr s

/-- `int_to_le_bytes(x, length, signed)` from `utils.py`:
`if not isinstance(x, int): x = int(x)` followed by
`[i for i in x.to_bytes(length, "little", signed=signed)]`. -/
def int_to_le_bytes (x : PyScalar) (length : Nat) (signed : Bool) : Except CLErr (List Nat) :=
  match py_int x with
  | none => .error .ValueError
  | some n => toBytesPy n length signed

/-- The unreachable alternative implementation on line 12 of `utils.py`:
`[0xff & x >> 8 * i for i in range(length)]` (Python `>>` is an arithmetic
shift and `&` a two's-complement bitwise and, both available on `Int`). -/
def int_to_le_bytes_alt (x : Int) (length : Nat) : List Int :=
  (List.range length).map (fun i => Int.land 0xff (Int.shiftRight x (8 * i)))

/-- Value of a byte list read as a little-endian natural number. -/
def leNat : List Nat → Nat
  | [] => 0
  | b :: bs => b + 256 * leNat bs

/-! ## Arithmetic lemmas about the byte-array helpers -/

theorem leNat_le_digits (len m : Nat) (h : m < 2 ^ (8 * len)) :
    leNat ((List.range len).map (fun i => m / 2 ^ (8 * i) % 256)) = m := by
  induction len generalizing m with
  | zero =>
      simp only [List.range_zero, List.map_nil, leNat]
      omega
  | succ n ih =>
      rw [List.range_succ_eq_map, List.map_cons, List.map_map]
      have hcast : ((fun i => m / 2 ^ (8 * i) % 256) ∘ Nat.succ)
          = (fun i => (m / 256) / 2 ^ (8 * i) % 256) := by
        funext i
        simp only [Function.comp]
        rw [Nat.div_div_eq_div_mul]
        congr 2
        rw [Nat.mul_succ]
        ring
      rw [hcast, leNat]
      have hlt : m / 256 < 2 ^ (8 * n) := by
        apply Nat.div_lt_of_lt_mul
        calc m < 2 ^ (8 * (n + 1)) := h
        _ = 2 ^ (8 * n) * 256 := by rw [Nat.mul_succ, pow_add]; norm_num
        _ = 256 * 2 ^ (8 * n) := by ring
      rw [ih (m / 256) hlt]
      simp only [Nat.mul_zero, pow_zero, Nat.div_one]
      omega

set_option maxRecDepth 8000 in
theorem land255_emod (z : Int) : Int.land 255 z = z % 256 := by
  have and255 : ∀ n : Nat, 255 &&& n = n % 256 := by
    intro n
    apply Nat.eq_of_testBit_eq
    intro i
    rw [show (256 : Nat) = 2 ^ 8 by norm_num, Nat.testBit_and, Nat.testBit_mod_two_pow,
      show (255 : Nat) = 2 ^ 8 - 1 by norm_num, Nat.testBit_two_pow_sub_one]
  have ldiff255 : ∀ m : Nat, Nat.ldiff 255 m = 255 - m % 256 := by
    intro m
    have hx : ∀ b, b < 256 → 255 - b = 255 ^^^ b := by decide
    rw [hx (m % 256) (Nat.mod_lt _ (by norm_num))]
    apply Nat.eq_of_testBit_eq
    intro i
    rw [Nat.testBit_ldiff, Nat.testBit_xor,
      show (256 : Nat) = 2 ^ 8 by norm_num, Nat.testBit_mod_two_pow,
      show (255 : Nat) = 2 ^ 8 - 1 by norm_num, Nat.testBit_two_pow_sub_one]
    by_cases h : i < 8 <;> simp [h]
  cases z with
  | ofNat n =>
      have h1 : Int.land 255 (Int.ofNat n) = Int.ofNat (255 &&& n) := rfl
      rw [h1, and255]
      simp only [Int.ofNat_eq_natCast]
      omega
  | negSucc m =>
      have h1 : Int.land 255 (Int.negSucc m) = Int.ofNat (Nat.ldiff 255 m) := rfl
      rw [h1, ldiff255, Int.negSucc_eq]
      simp only [Int.ofNat_eq_natCast]
      omega

theorem emod_shift_byte (x : Int) (len i : Nat) (hi : i < len) :
    (x / 2 ^ (8 * i)) % 256 = (x % 2 ^ (8 * len)) / 2 ^ (8 * i) % 256 := by
  have hsplit : x % 2 ^ (8 * len) = x + (-(x / 2 ^ (8 * len))) * 2 ^ (8 * len) := by
    rw [Int.emod_def]; ring
  have hpow : (2 ^ (8 * len) : Int) = 2 ^ (8 * i) * 2 ^ (8 * (len - i)) := by
    rw [← pow_add]; congr 1; omega
  have hdiv : (x % 2 ^ (8 * len)) / 2 ^ (8 * i)
      = x / 2 ^ (8 * i) + (-(x / 2 ^ (8 * len))) * 2 ^ (8 * (len - i)) := by
    rw [hsplit, hpow, show ∀ a b : Int, ∀ c d : Int, a + b * (c * d) = a + (b * d) * c by
      intro a b c d; ring]
    exact Int.add_mul_ediv_right _ _ (by positivity)
  rw [hdiv]
  have h256 : (2 ^ (8 * (len - i)) : Int) = 256 * 2 ^ (8 * (len - i) - 8) := by
    rw [show (256 : Int) = 2 ^ 8 by norm_num, ← pow_add]
    congr 1
    omega
  rw [h256, show ∀ a b c : Int, a + b * (256 * c) = a + (b * c) * 256 by intro a b c; ring]
  rw [Int.add_mul_emod_self]

/-! ## Claims about `int_to_le_bytes` -/

/-- C3: for every integer `x` that fits in the target width with the given
signedness, `int_to_le_bytes` with `length = width/8` returns exactly
`length` bytes, which are the little-endian two's-complement representation
of `x` (for unsigned conversion, the little-endian value is `x` itself). -/
theorem int_to_le_bytes_fixed_width (x : Int) (length : Nat) (signed : Bool)
    (h : fitsWidth x length signed = true) :
    ∃ l, int_to_le_bytes (.pyint x) length signed = .ok l ∧
      l.length = length ∧ (∀ b ∈ l, b < 256) ∧
      (leNat l : Int) = x % (2 ^ (8 * length) : Int) ∧
      (signed = false → (leNat l : Int) = x) := by
  have hpos : (0 : Int) < 2 ^ (8 * length) := by positivity
  have h0 : 0 ≤ x % (2 ^ (8 * length) : Int) := Int.emod_nonneg _ (by positivity)
  have hlt : x % (2 ^ (8 * length) : Int) < 2 ^ (8 * length) := Int.emod_lt_of_pos _ hpos
  have hm : (x % (2 ^ (8 * length) : Int)).toNat < 2 ^ (8 * length) := by
    have := Int.toNat_of_nonneg h0
    have hcast : ((2 ^ (8 * length) : Nat) : Int) = (2 ^ (8 * length) : Int) := by push_cast; ring
    omega
  refine ⟨(List.range length).map
      (fun i => (x % (2 ^ (8 * length) : Int)).toNat / 2 ^ (8 * i) % 256),
    by simp [int_to_le_bytes, py_int, toBytesPy, h], ?_, ?_, ?_, ?_⟩
  · simp
  · intro b hb
    simp only [List.mem_map] at hb
    obtain ⟨i, _, rfl⟩ := hb
    exact Nat.mod_lt _ (by norm_num)
  · rw [leNat_le_digits _ _ hm, Int.toNat_of_nonneg h0]
  · intro hs
    rw [leNat_le_digits _ _ hm, Int.toNat_of_nonneg h0]
    rw [hs] at h
    simp only [fitsWidth, if_false, Bool.false_eq_true, Bool.and_eq_true, decide_eq_true_eq] at h
    exact Int.emod_eq_of_lt h.1 h.2

/-- Witness for C3 at `x = 1000`, `length = 2`, unsigned. -/
theorem int_to_le_bytes_fixed_width_witness :
    fitsWidth 1000 2 false = true ∧
    ∃ l, int_to_le_bytes (.pyint 1000) 2 false = .ok l ∧
      l.length = 2 ∧ (∀ b ∈ l, b < 256) ∧
      (leNat l : Int) = 1000 % (2 ^ (8 * 2) : Int) ∧
      (false = false → (leNat l : Int) = 1000) :=
  ⟨by decide, int_to_le_bytes_fixed_width 1000 2 false (by decide)⟩

/-- C4: `int_to_le_bytes` on an `int` fails with the `IntegerOverflow` error
kind exactly when the value does not fit the requested width/signedness, and
succeeds exactly when it does. -/
theorem int_to_le_bytes_overflow_iff (x : Int) (length : Nat) (signed : Bool) :
    (fitsWidth x length signed = false ↔
      int_to_le_bytes (.pyint x) length signed = .error .IntegerOverflow) ∧
    (fitsWidth x length signed = true ↔
      ∃ l, int_to_le_bytes (.pyint x) length signed = .ok l) := by
  unfold int_to_le_bytes py_int toBytesPy
  by_cases h : fitsWidth x length signed = true <;> simp [h]

/-- C9: `int_to_le_bytes` silently coerces any non-`int` input accepted by
`int()` and then behaves exactly as on the coerced integer. -/
theorem int_to_le_bytes_coerces (x : PyScalar) (length : Nat) (signed : Bool) (n : Int)
    (h : py_int x = some n) :
    int_to_le_bytes x length signed = int_to_le_bytes (.pyint n) length signed := by
  unfold int_to_le_bytes
  rw [h]
  rfl

/-- Witness for C9 at the numeric string `"42"`. -/
theorem int_to_le_bytes_coerces_witness :
    py_int (.pystr ['4', '2']) = some 42 ∧
    int_to_le_bytes (.pystr ['4', '2']) 4 false = int_to_le_bytes (.pyint 42) 4 false :=
  ⟨by decide, int_to_le_bytes_coerces (.pystr ['4', '2']) 4 false 42 (by decide)⟩

/-- C10: on every integer representable in `length` bytes, the unreachable
alternative implementation on line 12 of `utils.py` computes the same byte
list as the active implementation on line 11. -/
theorem int_to_le_bytes_alt_agrees (x : Int) (length : Nat) (signed : Bool)
    (h : fitsWidth x length signed = true) :
    ∃ l, int_to_le_bytes (.pyint x) length signed = .ok l ∧
      int_to_le_bytes_alt x length = l.map (fun b : Nat => (b : Int)) := by
  refine ⟨(List.range length).map
      (fun i => (x % (2 ^ (8 * length) : Int)).toNat / 2 ^ (8 * i) % 256),
    by simp [int_to_le_bytes, py_int, toBytesPy, h], ?_⟩
  unfold int_to_le_bytes_alt
  rw [List.map_map]
  apply List.map_congr_left
  intro i hi
  rw [List.mem_range] at hi
  show Int.land 255 (Int.shiftRight x (8 * i)) = _
  rw [land255_emod, ← Int.shiftRight_eq, Int.shiftRight_eq_div_pow, Function.comp_apply]
  have h0 : 0 ≤ x % (2 ^ (8 * length) : Int) := Int.emod_nonneg _ (by positivity)
  rw [show ((2 ^ (8 * i) : Nat) : Int) = (2 ^ (8 * i) : Int) by push_cast; ring,
    emod_shift_byte x length i hi]
  conv_lhs => rw [← Int.toNat_of_nonneg h0]
  rw [show (2 ^ (8 * i) : Int) = ((2 ^ (8 * i) : Nat) : Int) by push_cast; ring,
    ← Int.ofNat_ediv, show (256 : Int) = ((256 : Nat) : Int) by norm_num, ← Int.ofNat_emod]

/-- Witness for C10 at `x = -2`, `length = 2`, signed. -/
theorem int_to_le_bytes_alt_agrees_witness :
    fitsWidth (-2) 2 true = true ∧
    ∃ l, int_to_le_bytes (.pyint (-2)) 2 true = .ok l ∧
      int_to_le_bytes_alt (-2) 2 = l.map (fun b : Nat => (b : Int)) :=
  ⟨by decide, int_to_le_bytes_alt_agrees (-2) 2 true (by decide)⟩

/-! ## Byte-level helpers for the CL codec

The codec proper (type descriptors, dispatcher, per-variant layouts) is not
among the visible sources; every definition from here on is modelled from the
spec (§3–§4.6) and says so in its doc comment. -/

/-- Little-endian bytes of `n` in exactly `len` bytes (`n mod 2^(8·len)`). -/
def natLE (len n : Nat) : List Nat :=
  (List.range len).map (fun i => n / 2 ^ (8 * i) % 256)

theorem natLE_length (len n : Nat) : (natLE len n).length = len := by
  simp [natLE]

theorem leNat_natLE (len n : Nat) (h : n < 2 ^ (8 * len)) : leNat (natLE len n) = n :=
  leNat_le_digits len n h

/-- Modelled from the spec: reading `n` bytes from the front of a buffer,
`BufferUnderflow` when fewer remain (§7). -/
def readN (n : Nat) (bs : List Nat) : Except CLErr (List Nat × List Nat) :=
  if bs.length < n then .error .BufferUnderflow else .ok (bs.take n, bs.drop n)

theorem readN_exact (l rest : List Nat) (n : Nat) (h : l.length = n) :
    readN n (l ++ rest) = .ok (l, rest) := by
  subst h
  rw [readN, if_neg (by simp), List.take_left, List.drop_left]

theorem readN_short (n : Nat) (bs : List Nat) (h : bs.length < n) :
    readN n bs = .error .BufferUnderflow := by
  rw [readN, if_pos h]

/-- Modelled from the spec (§4.1): decode of an unsigned fixed-width integer. -/
def decFixedNat (len : Nat) (bs : List Nat) : Except CLErr (Nat × List Nat) :=
  (readN len bs).map (fun p => (leNat p.1, p.2))

/-- Modelled from the spec (§4.1): encode of a signed fixed-width integer,
little-endian two's complement. -/
def encFixedInt (len : Nat) (x : Int) : List Nat :=
  natLE len (x % (2 ^ (8 * len) : Int)).toNat

/-- Modelled from the spec (§4.1): decode of a signed fixed-width integer. -/
def decFixedInt (len : Nat) (bs : List Nat) : Except CLErr (Int × List Nat) :=
  (readN len bs).map (fun p =>
    (if leNat p.1 < 2 ^ (8 * len - 1) then (leNat p.1 : Int)
     else (leNat p.1 : Int) - 2 ^ (8 * len), p.2))

theorem decFixedNat_rt (len n : Nat) (rest : List Nat) (h : n < 2 ^ (8 * len)) :
    decFixedNat len (natLE len n ++ rest) = .ok (n, rest) := by
  rw [decFixedNat, readN_exact _ _ _ (natLE_length len n)]
  simp [Except.map, leNat_natLE len n h]

theorem decFixedInt_rt (len : Nat) (x : Int) (rest : List Nat) (hlen : 1 ≤ len)
    (h : fitsWidth x len true = true) :
    decFixedInt len (encFixedInt len x ++ rest) = .ok (x, rest) := by
  have hp2 : ((2 ^ (8 * len) : Nat) : Int) = (2 ^ (8 * len) : Int) := by push_cast; ring
  have hsplit : (2 ^ (8 * len) : Int) = 2 * 2 ^ (8 * len - 1) := by
    rw [← pow_succ']
    congr 1
    omega
  rw [fitsWidth, if_pos rfl, if_neg (by omega)] at h
  simp only [Bool.and_eq_true, decide_eq_true_eq] at h
  have hmod : x % (2 ^ (8 * len) : Int) = if 0 ≤ x then x else x + 2 ^ (8 * len) := by
    by_cases hx : 0 ≤ x
    · rw [if_pos hx]
      exact Int.emod_eq_of_lt hx (by omega)
    · rw [if_neg hx, show x % (2 ^ (8 * len) : Int) = (x + 2 ^ (8 * len) * 1) % 2 ^ (8 * len) by
        rw [Int.add_mul_emod_self_left]]
      rw [mul_one]
      exact Int.emod_eq_of_lt (by omega) (by omega)
  have hm0 : 0 ≤ x % (2 ^ (8 * len) : Int) := Int.emod_nonneg _ (by positivity)
  have hmlt : x % (2 ^ (8 * len) : Int) < 2 ^ (8 * len) := Int.emod_lt_of_pos _ (by positivity)
  have htn : (((x % (2 ^ (8 * len) : Int)).toNat : Int)) = x % (2 ^ (8 * len) : Int) :=
    Int.toNat_of_nonneg hm0
  have hlt : (x % (2 ^ (8 * len) : Int)).toNat < 2 ^ (8 * len) := by omega
  rw [decFixedInt, encFixedInt, readN_exact _ _ _ (natLE_length _ _)]
  simp only [Except.map, leNat_natLE _ _ hlt]
  have hcast1 : ((2 ^ (8 * len - 1) : Nat) : Int) = (2 ^ (8 * len - 1) : Int) := by
    push_cast; ring
  by_cases hx : 0 ≤ x
  · rw [if_pos (by omega)]
    congr 1
    congr 1
    omega
  · rw [if_neg (by omega)]
    congr 1
    congr 1
    omega

/-! ### UTF-8 (spec §4.3, String row) -/

/-- A Unicode scalar value (what a Python `str` element is). -/
def isScalar (c : Nat) : Bool :=
  decide (c < 0x110000) && !(decide (0xD800 ≤ c) && decide (c < 0xE000))

/-- UTF-8 encoding of one Unicode scalar value. -/
def utf8Char (c : Nat) : List Nat :=
  if c < 0x80 then [c]
  else if c < 0x800 then [0xC0 + c / 64, 0x80 + c % 64]
  else if c < 0x10000 then [0xE0 + c / 4096, 0x80 + c / 64 % 64, 0x80 + c % 64]
  else [0xF0 + c / 262144, 0x80 + c / 4096 % 64, 0x80 + c / 64 % 64, 0x80 + c % 64]

/-- UTF-8 encoding of a sequence of scalar values. -/
def utf8Encode : List Nat → List Nat
  | [] => []
  | c :: cs => utf8Char c ++ utf8Encode cs

/-- A UTF-8 continuation byte. -/
def isCont (b : Nat) : Bool := decide (0x80 ≤ b) && decide (b < 0xC0)

/-- The lead byte of a UTF-8 sequence: number of continuation bytes and the
high bits it contributes; `none` on a stray continuation or invalid lead. -/
def leadInfo (b0 : Nat) : Option (Nat × Nat) :=
  if b0 < 0x80 then some (0, b0)
  else if b0 < 0xC0 then none
  else if b0 < 0xE0 then some (1, b0 - 0xC0)
  else if b0 < 0xF0 then some (2, b0 - 0xE0)
  else if b0 < 0xF8 then some (3, b0 - 0xF0)
  else none

/-- Read `k` continuation bytes, accumulating the code point. -/
def readCont : Nat → Nat → List Nat → Option (Nat × List Nat)
  | 0, acc, r => some (acc, r)
  | k + 1, acc, b :: r => if isCont b then readCont k (acc * 64 + (b - 0x80)) r else none
  | _ + 1, _, [] => none

/-- Smallest code point whose canonical encoding uses `k` continuation bytes
(the overlong-encoding bound). -/
def minScalar : Nat → Nat
  | 0 => 0 | 1 => 0x80 | 2 => 0x800 | _ => 0x10000

/-- Final checks of a decoded code point: not overlong, not a surrogate,
in range. -/
def decodeBody (k : Nat) : Option (Nat × List Nat) → Option (Nat × List Nat)
  | none => none
  | some (c, r2) => if minScalar k ≤ c ∧ isScalar c = true then some (c, r2) else none

/-- Continue one-character decoding after reading the lead byte. -/
def decodeLead : Option (Nat × Nat) → List Nat → Option (Nat × List Nat)
  | none, _ => none
  | some (k, hi), r => decodeBody k (readCont k hi r)

/-- Decode one UTF-8 character from the front of a buffer. -/
def decodeOne : List Nat → Option (Nat × List Nat)
  | [] => none
  | b0 :: r => decodeLead (leadInfo b0) r

/-- Modelled from the spec: strict UTF-8 decoding of a whole buffer
(`MalformedUTF8` on any ill-formed, overlong or surrogate sequence); the fuel
argument only drives termination, one unit per decoded character. -/
def utf8DecodeAux : Nat → List Nat → Except CLErr (List Nat)
  | _, [] => .ok []
  | 0, _ :: _ => .error .MalformedUTF8
  | fuel + 1, b0 :: r =>
      match decodeOne (b0 :: r) with
      | none => .error .MalformedUTF8
      | some (c, r2) => (utf8DecodeAux fuel r2).map (fun cs => c :: cs)

/-- Strict UTF-8 decoding of a byte buffer. -/
def utf8Decode (bs : List Nat) : Except CLErr (List Nat) := utf8DecodeAux bs.length bs

theorem utf8DecodeAux_some (fuel b0 c : Nat) (r r2 : List Nat)
    (h : decodeOne (b0 :: r) = some (c, r2)) :
    utf8DecodeAux (fuel + 1) (b0 :: r) = (utf8DecodeAux fuel r2).map (fun cs => c :: cs) := by
  have hstep : utf8DecodeAux (fuel + 1) (b0 :: r) =
      match decodeOne (b0 :: r) with
      | none => .error .MalformedUTF8
      | some (c, r2) => (utf8DecodeAux fuel r2).map (fun cs => c :: cs) := rfl
  rw [hstep, h]

theorem utf8Char_ne_nil (c : Nat) : utf8Char c ≠ [] := by
  rw [utf8Char]
  split <;> try split <;> try split
  all_goals simp

theorem decodeOne_char (c : Nat) (hc : isScalar c = true) (rest : List Nat) :
    decodeOne (utf8Char c ++ rest) = some (c, rest) := by
  have hsc := hc
  simp only [isScalar, Bool.and_eq_true, Bool.not_eq_eq_eq_not, Bool.not_true,
    decide_eq_true_eq, Bool.and_eq_false_imp, decide_eq_false_iff_not] at hsc
  by_cases h1 : c < 0x80
  · rw [utf8Char, if_pos h1, List.singleton_append, decodeOne,
      show leadInfo c = some (0, c) by rw [leadInfo, if_pos h1],
      decodeLead, readCont, decodeBody,
      if_pos (And.intro (by norm_num [minScalar]) hc)]
  · by_cases h2 : c < 0x800
    · rw [utf8Char, if_neg h1, if_pos h2, List.cons_append, List.singleton_append, decodeOne,
        show leadInfo (0xC0 + c / 64) = some (1, c / 64) by
          rw [leadInfo, if_neg (by omega), if_neg (by omega), if_pos (by omega)]
          exact congrArg (fun x => some (1, x)) (by omega),
        decodeLead,
        show readCont 1 (c / 64) ((0x80 + c % 64) :: rest) = some (c, rest) by
          rw [readCont, if_pos (by rw [isCont]; simp; omega), readCont]
          exact congrArg (fun x => some (x, rest)) (by omega),
        decodeBody,
        if_pos (And.intro (by norm_num [minScalar]; omega) hc)]
    · by_cases h3 : c < 0x10000
      · rw [utf8Char, if_neg h1, if_neg h2, if_pos h3, List.cons_append, List.cons_append,
          List.singleton_append, decodeOne,
          show leadInfo (0xE0 + c / 4096) = some (2, c / 4096) by
            rw [leadInfo, if_neg (by omega), if_neg (by omega), if_neg (by omega),
              if_pos (by omega)]
            exact congrArg (fun x => some (2, x)) (by omega),
          decodeLead,
          show readCont 2 (c / 4096) ((0x80 + c / 64 % 64) :: (0x80 + c % 64) :: rest)
              = some (c, rest) by
            rw [readCont, if_pos (by rw [isCont]; simp; omega),
              readCont, if_pos (by rw [isCont]; simp; omega), readCont]
            exact congrArg (fun x => some (x, rest)) (by omega),
          decodeBody,
          if_pos (And.intro (by norm_num [minScalar]; omega) hc)]
      · rw [utf8Char, if_neg h1, if_neg h2, if_neg h3, List.cons_append, List.cons_append,
          List.cons_append, List.singleton_append, decodeOne,
          show leadInfo (0xF0 + c / 262144) = some (3, c / 262144) by
            rw [leadInfo, if_neg (by omega), if_neg (by omega), if_neg (by omega),
              if_neg (by omega), if_pos (by omega)]
            exact congrArg (fun x => some (3, x)) (by omega),
          decodeLead,
          show readCont 3 (c / 262144)
              ((0x80 + c / 4096 % 64) :: (0x80 + c / 64 % 64) :: (0x80 + c % 64) :: rest)
              = some (c, rest) by
            rw [readCont, if_pos (by rw [isCont]; simp; omega),
              readCont, if_pos (by rw [isCont]; simp; omega),
              readCont, if_pos (by rw [isCont]; simp; omega), readCont]
            exact congrArg (fun x => some (x, rest)) (by omega),
          decodeBody,
          if_pos (And.intro (by norm_num [minScalar]; omega) hc)]

theorem utf8DecodeAux_char (c : Nat) (hc : isScalar c = true) (fuel : Nat) (rest : List Nat) :
    utf8DecodeAux (fuel + 1) (utf8Char c ++ rest)
      = (utf8DecodeAux fuel rest).map (fun cs => c :: cs) := by
  obtain ⟨b0, r, hbr⟩ : ∃ b0 r, utf8Char c ++ rest = b0 :: r := by
    cases hu : utf8Char c with
    | nil => exact absurd hu (utf8Char_ne_nil c)
    | cons x xs => exact ⟨x, xs ++ rest, by rw [List.cons_append]⟩
  rw [hbr]
  exact utf8DecodeAux_some fuel b0 c r rest (by rw [← hbr, decodeOne_char c hc rest])

theorem utf8DecodeAux_encode (cs : List Nat) (h : cs.all isScalar = true) :
    ∀ fuel, cs.length ≤ fuel → utf8DecodeAux fuel (utf8Encode cs) = .ok cs := by
  induction cs with
  | nil =>
      intro fuel _
      rw [utf8Encode]
      cases fuel <;> rfl
  | cons c cs ih =>
      intro fuel hf
      simp only [List.all_cons, Bool.and_eq_true] at h
      obtain ⟨f, rfl⟩ : ∃ f, fuel = f + 1 := ⟨fuel - 1, by simp at hf; omega⟩
      rw [utf8Encode, utf8DecodeAux_char c h.1 f (utf8Encode cs),
        ih h.2 f (by simp at hf; omega)]
      rfl

theorem utf8Encode_length_ge (cs : List Nat) : cs.length ≤ (utf8Encode cs).length := by
  induction cs with
  | nil => simp [utf8Encode]
  | cons c cs ih =>
      rw [utf8Encode, List.length_append, List.length_cons]
      have h1 : 1 ≤ (utf8Char c).length := by
        cases hu : utf8Char c with
        | nil => exact absurd hu (utf8Char_ne_nil c)
        | cons x xs => simp
      omega

theorem utf8Decode_encode (cs : List Nat) (h : cs.all isScalar = true) :
    utf8Decode (utf8Encode cs) = .ok cs :=
  utf8DecodeAux_encode cs h (utf8Encode cs).length (utf8Encode_length_ge cs)

/-! ### Variable-width big integers (spec §4.2) -/

/-- Fuel-driven minimal byte length; `byteLen` instantiates the fuel. -/
def byteLenAux : Nat → Nat → Nat
  | 0, _ => 0
  | fuel + 1, n => if n = 0 then 0 else 1 + byteLenAux fuel (n / 256)

/-- Minimal number of bytes needed for the little-endian magnitude of `n`
(zero for `n = 0`). -/
def byteLen (n : Nat) : Nat := byteLenAux n n

theorem byteLenAux_zero (fuel : Nat) : byteLenAux fuel 0 = 0 := by
  cases fuel <;> rfl

theorem byteLenAux_lt (fuel : Nat) :
    ∀ n, n ≤ fuel → n < 2 ^ (8 * byteLenAux fuel n) := by
  induction fuel with
  | zero =>
      intro n hn
      rw [byteLenAux]
      omega
  | succ f ih =>
      intro n hn
      rw [byteLenAux]
      by_cases h0 : n = 0
      · rw [if_pos h0]
        omega
      · rw [if_neg h0]
        have hdiv : n / 256 < n := Nat.div_lt_self (by omega) (by norm_num)
        have hrec := ih (n / 256) (by omega)
        have hmul : n < 2 ^ (8 * byteLenAux f (n / 256)) * 256 :=
          (Nat.div_lt_iff_lt_mul (by norm_num)).mp hrec
        have hp : 2 ^ (8 * (1 + byteLenAux f (n / 256)))
            = 2 ^ (8 * byteLenAux f (n / 256)) * 256 := by
          rw [show 8 * (1 + byteLenAux f (n / 256)) = 8 * byteLenAux f (n / 256) + 8 by ring,
            pow_add]
          norm_num
        omega

theorem byteLenAux_pos (fuel n : Nat) (hn : n ≤ fuel) (h0 : n ≠ 0) :
    1 ≤ byteLenAux fuel n := by
  cases fuel with
  | zero => omega
  | succ f =>
      rw [byteLenAux, if_neg h0]
      omega

theorem byteLenAux_min (fuel : Nat) :
    ∀ n, n ≤ fuel → n ≠ 0 → 2 ^ (8 * (byteLenAux fuel n - 1)) ≤ n := by
  induction fuel with
  | zero =>
      intro n hn h0
      omega
  | succ f ih =>
      intro n hn h0
      rw [byteLenAux, if_neg h0]
      by_cases hq : n / 256 = 0
      · rw [hq, byteLenAux_zero]
        simp
        omega
      · have hdiv : n / 256 < n := Nat.div_lt_self (by omega) (by norm_num)
        have hrec := ih (n / 256) (by omega) hq
        have hpos : 1 ≤ byteLenAux f (n / 256) := byteLenAux_pos f (n / 256) (by omega) hq
        have hstep : 2 ^ (8 * (byteLenAux f (n / 256) - 1)) * 256 ≤ n / 256 * 256 :=
          Nat.mul_le_mul_right 256 hrec
        have hle : n / 256 * 256 ≤ n := Nat.div_mul_le_self n 256
        have hp : 2 ^ (8 * (1 + byteLenAux f (n / 256) - 1))
            = 2 ^ (8 * (byteLenAux f (n / 256) - 1)) * 256 := by
          rw [show 8 * (1 + byteLenAux f (n / 256) - 1)
              = 8 * (byteLenAux f (n / 256) - 1) + 8 by omega, pow_add]
          norm_num
        omega

theorem byteLenAux_le (fuel : Nat) :
    ∀ n k, n ≤ fuel → n < 2 ^ (8 * k) → byteLenAux fuel n ≤ k := by
  induction fuel with
  | zero =>
      intro n k hn _
      rw [byteLenAux]
      omega
  | succ f ih =>
      intro n k hn hk
      rw [byteLenAux]
      by_cases h0 : n = 0
      · rw [if_pos h0]
        omega
      · rw [if_neg h0]
        have hk1 : 1 ≤ k := by
          by_contra hc
          have : k = 0 := by omega
          subst this
          simp at hk
          omega
        have hdiv : n / 256 < n := Nat.div_lt_self (by omega) (by norm_num)
        have hp : 2 ^ (8 * k) = 2 ^ (8 * (k - 1)) * 256 := by
          rw [show 8 * k = 8 * (k - 1) + 8 by omega, pow_add]
          norm_num
        have hrec := ih (n / 256) (k - 1) (by omega)
          ((Nat.div_lt_iff_lt_mul (by norm_num)).mpr (by omega))
        omega

theorem byteLen_lt (n : Nat) : n < 2 ^ (8 * byteLen n) := byteLenAux_lt n n le_rfl

theorem byteLen_min (n : Nat) (h0 : n ≠ 0) : 2 ^ (8 * (byteLen n - 1)) ≤ n :=
  byteLenAux_min n n le_rfl h0

theorem byteLen_le (n k : Nat) (h : n < 2 ^ (8 * k)) : byteLen n ≤ k :=
  byteLenAux_le n n k le_rfl h

theorem byteLen_pos (n : Nat) (h0 : n ≠ 0) : 1 ≤ byteLen n :=
  byteLenAux_pos n n le_rfl h0

/-- Length-prefix byte of a big-integer encoding: the minimal byte count of
the magnitude, except that zero is encoded with one zero byte (spec §3). -/
def minLen (n : Nat) : Nat := if n = 0 then 1 else byteLen n

/-- Modelled from the spec (§4.2): encode a big unsigned integer as one
length-prefix byte holding the minimal magnitude byte count, followed by the
little-endian magnitude. -/
def encBig (maxB n : Nat) : Except CLErr (List Nat) :=
  if n < 2 ^ (8 * maxB) then .ok (minLen n :: natLE (minLen n) n)
  else .error .IntegerOverflow

/-- Modelled from the spec (§4.2): decode a big unsigned integer: read the
length-prefix byte `n`, fail with `InvalidLength` when `n` exceeds the
maximum byte count of the target width, then consume exactly `n` magnitude
bytes, `BufferUnderflow` when unavailable. -/
def decBig (maxB : Nat) : List Nat → Except CLErr (Nat × List Nat)
  | [] => .error .BufferUnderflow
  | n :: r =>
      if maxB < n then .error .InvalidLength
      else (readN n r).map (fun p => (leNat p.1, p.2))

theorem minLen_le (maxB n : Nat) (hmax : 1 ≤ maxB) (h : n < 2 ^ (8 * maxB)) :
    minLen n ≤ maxB := by
  rw [minLen]
  by_cases h0 : n = 0
  · rw [if_pos h0]
    omega
  · rw [if_neg h0]
    exact byteLen_le n maxB h

theorem lt_pow_minLen (n : Nat) : n < 2 ^ (8 * minLen n) := by
  rw [minLen]
  by_cases h0 : n = 0
  · rw [if_pos h0]
    omega
  · rw [if_neg h0]
    exact byteLen_lt n

theorem decBig_rt (maxB n : Nat) (rest : List Nat) (hmax : 1 ≤ maxB)
    (h : n < 2 ^ (8 * maxB)) :
    decBig maxB ((minLen n :: natLE (minLen n) n) ++ rest) = .ok (n, rest) := by
  rw [List.cons_append, decBig, if_neg (by have := minLen_le maxB n hmax h; omega),
    readN_exact _ _ _ (natLE_length _ _)]
  simp [Except.map, leNat_natLE _ _ (lt_pow_minLen n)]

/-! ## The CL type-descriptor model and dispatcher (spec §3–§4.6) -/

/-- Modelled from the spec (§3): the closed set of CL type descriptors.
Parameterized variants own their inner descriptors; `ByteArray` carries its
fixed length. -/
inductive CLType where
  | Bool
  | I32
  | I64
  | U8
  | U32
  | U64
  | U128
  | U256
  | U512
  | Unit
  | String
  | Key
  | URef
  | PublicKey
  | Option (t : CLType)
  | List (t : CLType)
  | ByteArray (n : Nat)
  | Result (ok err : CLType)
  | Map (k v : CLType)
  | Tuple1 (t1 : CLType)
  | Tuple2 (t1 t2 : CLType)
  | Tuple3 (t1 t2 t3 : CLType)
  | Any
deriving DecidableEq, Repr

theorem CLType.sizeOf_pos (t : CLType) : 0 < sizeOf t := by
  cases t <;> simp_arith

/-- Modelled from the spec (§2, §4.6): native values a Value Container can
hold; strings are sequences of Unicode scalar values, byte-array-like
payloads are lists of byte values. -/
inductive CLValue where
  | vBool (b : Bool)
  | vI32 (n : Int)
  | vI64 (n : Int)
  | vU8 (n : Nat)
  | vU32 (n : Nat)
  | vU64 (n : Nat)
  | vU128 (n : Nat)
  | vU256 (n : Nat)
  | vU512 (n : Nat)
  | vUnit
  | vStr (cs : List Nat)
  | vKey (tag : Nat) (payload : List Nat)
  | vURef (addr : List Nat) (rights : Nat)
  | vPublicKey (alg : Nat) (kb : List Nat)
  | vOption (o : Option CLValue)
  | vList (vs : List CLValue)
  | vByteArray (bs : List Nat)
  | vResult (isOk : Bool) (v : CLValue)
  | vMap (kvs : List (CLValue × CLValue))
  | vTuple1 (a : CLValue)
  | vTuple2 (a b : CLValue)
  | vTuple3 (a b c : CLValue)

/-- Nesting depth of a descriptor (composite wrappers add one level). -/
def nestDepth : CLType → Nat
  | .Option t => 1 + nestDepth t
  | .List t => 1 + nestDepth t
  | .Result t e => 1 + max (nestDepth t) (nestDepth e)
  | .Map k v => 1 + max (nestDepth k) (nestDepth v)
  | .Tuple1 t1 => 1 + nestDepth t1
  | .Tuple2 t1 t2 => 1 + max (nestDepth t1) (nestDepth t2)
  | .Tuple3 t1 t2 t3 => 1 + max (nestDepth t1) (max (nestDepth t2) (nestDepth t3))
  | _ => 1

/-- Modelled from the spec (§4.5): the fixed maximum recursion depth for
nested composite descriptors. -/
def MAX_NESTING_DEPTH : Nat := 32

/-- Encode a sequence of elements with the element encoder `f`, concatenating
the results (spec §4.4). -/
def encodeSeq (f : CLValue → Except CLErr (List Nat)) : List CLValue → Except CLErr (List Nat)
  | [] => .ok []
  | v :: vs => do
      let x ← f v
      let y ← encodeSeq f vs
      .ok (x ++ y)

/-- Encode a sequence of key-value pairs in encounter order (spec §4.4). -/
def encodeKVSeq (fk fv : CLValue → Except CLErr (List Nat)) :
    List (CLValue × CLValue) → Except CLErr (List Nat)
  | [] => .ok []
  | (a, b) :: kvs => do
      let x ← fk a
      let y ← fv b
      let z ← encodeKVSeq fk fv kvs
      .ok (x ++ y ++ z)

/-- Decode `count` consecutive elements with the element decoder `f`,
element by element (spec §4.4). -/
def decodeSeq (f : List Nat → Except CLErr (CLValue × List Nat)) :
    Nat → List Nat → Except CLErr (List CLValue × List Nat)
  | 0, bs => .ok ([], bs)
  | c + 1, bs => do
      let p ← f bs
      let q ← decodeSeq f c p.2
      .ok (p.1 :: q.1, q.2)

/-- Decode `count` consecutive key-value pairs (spec §4.4). -/
def decodeKVSeq (fk fv : List Nat → Except CLErr (CLValue × List Nat)) :
    Nat → List Nat → Except CLErr (List (CLValue × CLValue) × List Nat)
  | 0, bs => .ok ([], bs)
  | c + 1, bs => do
      let p ← fk bs
      let q ← fv p.2
      let w ← decodeKVSeq fk fv c q.2
      .ok ((p.1, q.1) :: w.1, w.2)

/-- All elements satisfy the element predicate. -/
def validSeq (f : CLValue → Bool) : List CLValue → Bool
  | [] => true
  | v :: vs => f v && validSeq f vs

/-- All pairs satisfy the key and value predicates. -/
def validKVSeq (fk fv : CLValue → Bool) : List (CLValue × CLValue) → Bool
  | [] => true
  | (a, b) :: kvs => fk a && fv b && validKVSeq fk fv kvs

/-- Modelled from the spec (§4.1–§4.5): the encode dispatcher.  A pure
structural match on the descriptor, performing the structural-fit check
(`TypeMismatch` on shape mismatch, `IntegerOverflow` on out-of-range
integers) and delegating each variant to its layout.  The first argument is
the remaining recursion depth (§4.5): descending into a composite descriptor
consumes one level, and exhaustion is `ExcessiveNestingDepth`. -/
def encodeAux : Nat → CLType → CLValue → Except CLErr (List Nat)
  | 0, _, _ => .error .ExcessiveNestingDepth
  | fuel + 1, t, v =>
      match t, v with
      | .Bool, .vBool b => .ok [if b then 1 else 0]
      | .I32, .vI32 n =>
          if fitsWidth n 4 true then .ok (encFixedInt 4 n) else .error .IntegerOverflow
      | .I64, .vI64 n =>
          if fitsWidth n 8 true then .ok (encFixedInt 8 n) else .error .IntegerOverflow
      | .U8, .vU8 n => if n < 2 ^ 8 then .ok (natLE 1 n) else .error .IntegerOverflow
      | .U32, .vU32 n => if n < 2 ^ 32 then .ok (natLE 4 n) else .error .IntegerOverflow
      | .U64, .vU64 n => if n < 2 ^ 64 then .ok (natLE 8 n) else .error .IntegerOverflow
      | .U128, .vU128 n => encBig 16 n
      | .U256, .vU256 n => encBig 32 n
      | .U512, .vU512 n => encBig 64 n
      | .Unit, .vUnit => .ok []
      | .String, .vStr cs =>
          if cs.all isScalar then
            if (utf8Encode cs).length < 2 ^ 32 then
              .ok (natLE 4 (utf8Encode cs).length ++ utf8Encode cs)
            else .error .IntegerOverflow
          else .error .TypeMismatch
      | .Key, .vKey tag payload =>
          if ((tag == 0 || tag == 1) && payload.length == 32
                || tag == 2 && payload.length == 33)
              && payload.all (fun b => decide (b < 256)) then
            .ok (tag :: payload)
          else .error .TypeMismatch
      | .URef, .vURef addr rights =>
          if addr.length == 32 && addr.all (fun b => decide (b < 256))
              && decide (rights < 256) then
            .ok (addr ++ [rights])
          else .error .TypeMismatch
      | .PublicKey, .vPublicKey alg kb =>
          if (alg == 1 && kb.length == 32 || alg == 2 && kb.length == 33)
              && kb.all (fun b => decide (b < 256)) then
            .ok (alg :: kb)
          else .error .TypeMismatch
      | .Option _, .vOption none => .ok [0]
      | .Option t, .vOption (some w) => (encodeAux fuel t w).map (fun bs => 1 :: bs)
      | .List t, .vList vs =>
          if vs.length < 2 ^ 32 then
            (encodeSeq (encodeAux fuel t) vs).map (fun bs => natLE 4 vs.length ++ bs)
          else .error .IntegerOverflow
      | .ByteArray n, .vByteArray bs =>
          if bs.length == n && bs.all (fun b => decide (b < 256)) then .ok bs
          else .error .TypeMismatch
      | .Result t _, .vResult true w => (encodeAux fuel t w).map (fun bs => 1 :: bs)
      | .Result _ e, .vResult false w => (encodeAux fuel e w).map (fun bs => 0 :: bs)
      | .Map k v, .vMap kvs =>
          if kvs.length < 2 ^ 32 then
            (encodeKVSeq (encodeAux fuel k) (encodeAux fuel v) kvs).map
              (fun bs => natLE 4 kvs.length ++ bs)
          else .error .IntegerOverflow
      | .Tuple1 t1, .vTuple1 a => encodeAux fuel t1 a
      | .Tuple2 t1 t2, .vTuple2 a b => do
          let x ← encodeAux fuel t1 a
          let y ← encodeAux fuel t2 b
          .ok (x ++ y)
      | .Tuple3 t1 t2 t3, .vTuple3 a b c => do
          let x ← encodeAux fuel t1 a
          let y ← encodeAux fuel t2 b
          let z ← encodeAux fuel t3 c
          .ok (x ++ y ++ z)
      | _, _ => .error .TypeMismatch

/-- Modelled from the spec (§4.1–§4.5): the decode dispatcher.  Consumes
bytes left-to-right, returning the decoded value and the remaining buffer;
every failure is one specific error kind (§7).  The first argument is the
remaining recursion depth (§4.5). -/
def decodeAux : Nat → CLType → List Nat → Except CLErr (CLValue × List Nat)
  | 0, _, _ => .error .ExcessiveNestingDepth
  | fuel + 1, t, bs =>
      match t, bs with
      | .Bool, [] => .error .BufferUnderflow
      | .Bool, b :: r =>
          if b = 0 then .ok (.vBool false, r)
          else if b = 1 then .ok (.vBool true, r)
          else .error .InvalidTag
      | .I32, bs => (decFixedInt 4 bs).map (fun p => (.vI32 p.1, p.2))
      | .I64, bs => (decFixedInt 8 bs).map (fun p => (.vI64 p.1, p.2))
      | .U8, bs => (decFixedNat 1 bs).map (fun p => (.vU8 p.1, p.2))
      | .U32, bs => (decFixedNat 4 bs).map (fun p => (.vU32 p.1, p.2))
      | .U64, bs => (decFixedNat 8 bs).map (fun p => (.vU64 p.1, p.2))
      | .U128, bs => (decBig 16 bs).map (fun p => (.vU128 p.1, p.2))
      | .U256, bs => (decBig 32 bs).map (fun p => (.vU256 p.1, p.2))
      | .U512, bs => (decBig 64 bs).map (fun p => (.vU512 p.1, p.2))
      | .Unit, bs => .ok (.vUnit, bs)
      | .String, bs => do
          let p ← readN 4 bs
          let q ← readN (leNat p.1) p.2
          let cs ← utf8Decode q.1
          .ok (.vStr cs, q.2)
      | .Key, [] => .error .BufferUnderflow
      | .Key, tag :: r =>
          if tag = 0 ∨ tag = 1 then (readN 32 r).map (fun p => (.vKey tag p.1, p.2))
          else if tag = 2 then (readN 33 r).map (fun p => (.vKey tag p.1, p.2))
          else .error .InvalidTag
      | .URef, bs => do
          let p ← readN 32 bs
          (decFixedNat 1 p.2).map (fun q => (.vURef p.1 q.1, q.2))
      | .PublicKey, [] => .error .BufferUnderflow
      | .PublicKey, alg :: r =>
          if alg = 1 then (readN 32 r).map (fun p => (.vPublicKey 1 p.1, p.2))
          else if alg = 2 then (readN 33 r).map (fun p => (.vPublicKey 2 p.1, p.2))
          else .error .InvalidTag
      | .Option _, [] => .error .BufferUnderflow
      | .Option _, 0 :: r => .ok (.vOption none, r)
      | .Option t, 1 :: r => (decodeAux fuel t r).map (fun p => (.vOption (some p.1), p.2))
      | .Option _, _ :: _ => .error .InvalidTag
      | .List t, bs => do
          let p ← readN 4 bs
          (decodeSeq (decodeAux fuel t) (leNat p.1) p.2).map (fun q => (.vList q.1, q.2))
      | .ByteArray n, bs => (readN n bs).map (fun p => (.vByteArray p.1, p.2))
      | .Result _ _, [] => .error .BufferUnderflow
      | .Result _ e, 0 :: r => (decodeAux fuel e r).map (fun p => (.vResult false p.1, p.2))
      | .Result t _, 1 :: r => (decodeAux fuel t r).map (fun p => (.vResult true p.1, p.2))
      | .Result _ _, _ :: _ => .error .InvalidTag
      | .Map k v, bs => do
          let p ← readN 4 bs
          (decodeKVSeq (decodeAux fuel k) (decodeAux fuel v) (leNat p.1) p.2).map
            (fun q => (.vMap q.1, q.2))
      | .Tuple1 t1, bs => (decodeAux fuel t1 bs).map (fun p => (.vTuple1 p.1, p.2))
      | .Tuple2 t1 t2, bs => do
          let p ← decodeAux fuel t1 bs
          let q ← decodeAux fuel t2 p.2
          .ok (.vTuple2 p.1 q.1, q.2)
      | .Tuple3 t1 t2 t3, bs => do
          let p ← decodeAux fuel t1 bs
          let q ← decodeAux fuel t2 p.2
          let w ← decodeAux fuel t3 q.2
          .ok (.vTuple3 p.1 q.1 w.1, w.2)
      | .Any, _ => .error .TypeMismatch

/-- Structural fit of a native value to a descriptor (the domain of the
encode path): correct shape, integers within width, bytes in range, strings
made of Unicode scalar values, count/length prefixes within 32 bits.  The
fuel argument mirrors the dispatcher's recursion depth. -/
def ValidVAux : Nat → CLType → CLValue → Bool
  | 0, _, _ => false
  | fuel + 1, t, v =>
      match t, v with
      | .Bool, .vBool _ => true
      | .I32, .vI32 n => fitsWidth n 4 true
      | .I64, .vI64 n => fitsWidth n 8 true
      | .U8, .vU8 n => decide (n < 2 ^ 8)
      | .U32, .vU32 n => decide (n < 2 ^ 32)
      | .U64, .vU64 n => decide (n < 2 ^ 64)
      | .U128, .vU128 n => decide (n < 2 ^ 128)
      | .U256, .vU256 n => decide (n < 2 ^ 256)
      | .U512, .vU512 n => decide (n < 2 ^ 512)
      | .Unit, .vUnit => true
      | .String, .vStr cs => cs.all isScalar && decide ((utf8Encode cs).length < 2 ^ 32)
      | .Key, .vKey tag payload =>
          ((tag == 0 || tag == 1) && payload.length == 32
              || tag == 2 && payload.length == 33)
            && payload.all (fun b => decide (b < 256))
      | .URef, .vURef addr rights =>
          addr.length == 32 && addr.all (fun b => decide (b < 256)) && decide (rights < 256)
      | .PublicKey, .vPublicKey alg kb =>
          (alg == 1 && kb.length == 32 || alg == 2 && kb.length == 33)
            && kb.all (fun b => decide (b < 256))
      | .Option _, .vOption none => true
      | .Option t, .vOption (some w) => ValidVAux fuel t w
      | .List t, .vList vs => decide (vs.length < 2 ^ 32) && validSeq (ValidVAux fuel t) vs
      | .ByteArray n, .vByteArray bs => bs.length == n && bs.all (fun b => decide (b < 256))
      | .Result t _, .vResult true w => ValidVAux fuel t w
      | .Result _ e, .vResult false w => ValidVAux fuel e w
      | .Map k v, .vMap kvs =>
          decide (kvs.length < 2 ^ 32) && validKVSeq (ValidVAux fuel k) (ValidVAux fuel v) kvs
      | .Tuple1 t1, .vTuple1 a => ValidVAux fuel t1 a
      | .Tuple2 t1 t2, .vTuple2 a b => ValidVAux fuel t1 a && ValidVAux fuel t2 b
      | .Tuple3 t1 t2 t3, .vTuple3 a b c =>
          ValidVAux fuel t1 a && ValidVAux fuel t2 b && ValidVAux fuel t3 c
      | _, _ => false

/-- Structural fit at the standard recursion depth. -/
def ValidV (d : CLType) (v : CLValue) : Bool := ValidVAux MAX_NESTING_DEPTH d v

/-- Modelled from the spec (§4.5): the single encode entry point; the
descriptor's nesting depth is guarded, and dispatch starts with the full
depth budget. -/
def encode (d : CLType) (v : CLValue) : Except CLErr (List Nat) :=
  if MAX_NESTING_DEPTH < nestDepth d then .error .ExcessiveNestingDepth
  else encodeAux MAX_NESTING_DEPTH d v

/-- Modelled from the spec (§4.5): the single decode entry point, returning
the decoded value together with the count of consumed bytes. -/
def decode (d : CLType) (bs : List Nat) : Except CLErr (CLValue × Nat) :=
  if MAX_NESTING_DEPTH < nestDepth d then .error .ExcessiveNestingDepth
  else (decodeAux MAX_NESTING_DEPTH d bs).map (fun p => (p.1, bs.length - p.2.length))

/-- Modelled from the spec (§6): the consumer interface
`decode_response(bytes, descriptor) -> NativeValue | Error`. -/
def decode_response (bs : List Nat) (d : CLType) : Except CLErr CLValue :=
  (decode d bs).map Prod.fst

theorem ebind_ok {α β : Type} (a : α) (f : α → Except CLErr β) :
    (Except.ok a >>= f) = f a := rfl

theorem ebind_err {α β : Type} (e : CLErr) (f : α → Except CLErr β) :
    ((Except.error e : Except CLErr α) >>= f) = .error e := rfl

theorem emap_ok {α β : Type} (a : α) (f : α → β) :
    (Except.ok a : Except CLErr α).map f = .ok (f a) := rfl

theorem emap_err {α β : Type} (e : CLErr) (f : α → β) :
    (Except.error e : Except CLErr α).map f = .error e := rfl

/-! ### Definitional step lemmas for the dispatcher -/

theorem encAux_bool (fuel : Nat) (b : Bool) :
    encodeAux (fuel + 1) .Bool (.vBool b) = .ok [if b then 1 else 0] := rfl

theorem encAux_i32 (fuel : Nat) (n : Int) :
    encodeAux (fuel + 1) .I32 (.vI32 n)
      = if fitsWidth n 4 true then .ok (encFixedInt 4 n) else .error .IntegerOverflow := rfl

theorem encAux_i64 (fuel : Nat) (n : Int) :
    encodeAux (fuel + 1) .I64 (.vI64 n)
      = if fitsWidth n 8 true then .ok (encFixedInt 8 n) else .error .IntegerOverflow := rfl

theorem encAux_u8 (fuel n : Nat) :
    encodeAux (fuel + 1) .U8 (.vU8 n)
      = if n < 2 ^ 8 then .ok (natLE 1 n) else .error .IntegerOverflow := rfl

theorem encAux_u32 (fuel n : Nat) :
    encodeAux (fuel + 1) .U32 (.vU32 n)
      = if n < 2 ^ 32 then .ok (natLE 4 n) else .error .IntegerOverflow := rfl

theorem encAux_u64 (fuel n : Nat) :
    encodeAux (fuel + 1) .U64 (.vU64 n)
      = if n < 2 ^ 64 then .ok (natLE 8 n) else .error .IntegerOverflow := rfl

theorem encAux_u128 (fuel n : Nat) :
    encodeAux (fuel + 1) .U128 (.vU128 n) = encBig 16 n := rfl

theorem encAux_u256 (fuel n : Nat) :
    encodeAux (fuel + 1) .U256 (.vU256 n) = encBig 32 n := rfl

theorem encAux_u512 (fuel n : Nat) :
    encodeAux (fuel + 1) .U512 (.vU512 n) = encBig 64 n := rfl

theorem encAux_unit (fuel : Nat) : encodeAux (fuel + 1) .Unit .vUnit = .ok [] := rfl

theorem encAux_string (fuel : Nat) (cs : List Nat) :
    encodeAux (fuel + 1) .String (.vStr cs)
      = (if cs.all isScalar then
          if (utf8Encode cs).length < 2 ^ 32 then
            .ok (natLE 4 (utf8Encode cs).length ++ utf8Encode cs)
          else .error .IntegerOverflow
        else .error .TypeMismatch) := rfl

theorem encAux_key (fuel : Nat) (tag : Nat) (payload : List Nat) :
    encodeAux (fuel + 1) .Key (.vKey tag payload)
      = (if ((tag == 0 || tag == 1) && payload.length == 32
              || tag == 2 && payload.length == 33)
            && payload.all (fun b => decide (b < 256)) then
          .ok (tag :: payload)
        else .error .TypeMismatch) := rfl

theorem encAux_uref (fuel : Nat) (addr : List Nat) (rights : Nat) :
    encodeAux (fuel + 1) .URef (.vURef addr rights)
      = (if addr.length == 32 && addr.all (fun b => decide (b < 256))
            && decide (rights < 256) then
          .ok (addr ++ [rights])
        else .error .TypeMismatch) := rfl

theorem encAux_pk (fuel : Nat) (alg : Nat) (kb : List Nat) :
    encodeAux (fuel + 1) .PublicKey (.vPublicKey alg kb)
      = (if (alg == 1 && kb.length == 32 || alg == 2 && kb.length == 33)
            && kb.all (fun b => decide (b < 256)) then
          .ok (alg :: kb)
        else .error .TypeMismatch) := rfl

theorem encAux_opt_none (fuel : Nat) (t : CLType) :
    encodeAux (fuel + 1) (.Option t) (.vOption none) = .ok [0] := rfl

theorem encAux_opt_some (fuel : Nat) (t : CLType) (w : CLValue) :
    encodeAux (fuel + 1) (.Option t) (.vOption (some w))
      = (encodeAux fuel t w).map (fun bs => 1 :: bs) := rfl

theorem encAux_list (fuel : Nat) (t : CLType) (vs : List CLValue) :
    encodeAux (fuel + 1) (.List t) (.vList vs)
      = (if vs.length < 2 ^ 32 then
          (encodeSeq (encodeAux fuel t) vs).map (fun bs => natLE 4 vs.length ++ bs)
        else .error .IntegerOverflow) := rfl

theorem encAux_bytearray (fuel n : Nat) (bs : List Nat) :
    encodeAux (fuel + 1) (.ByteArray n) (.vByteArray bs)
      = (if bs.length == n && bs.all (fun b => decide (b < 256)) then .ok bs
        else .error .TypeMismatch) := rfl

theorem encAux_result_ok (fuel : Nat) (t e : CLType) (w : CLValue) :
    encodeAux (fuel + 1) (.Result t e) (.vResult true w)
      = (encodeAux fuel t w).map (fun bs => 1 :: bs) := rfl

theorem encAux_result_err (fuel : Nat) (t e : CLType) (w : CLValue) :
    encodeAux (fuel + 1) (.Result t e) (.vResult false w)
      = (encodeAux fuel e w).map (fun bs => 0 :: bs) := rfl

theorem encAux_map (fuel : Nat) (k v : CLType) (kvs : List (CLValue × CLValue)) :
    encodeAux (fuel + 1) (.Map k v) (.vMap kvs)
      = (if kvs.length < 2 ^ 32 then
          (encodeKVSeq (encodeAux fuel k) (encodeAux fuel v) kvs).map
            (fun bs => natLE 4 kvs.length ++ bs)
        else .error .IntegerOverflow) := rfl

theorem encAux_tup1 (fuel : Nat) (t1 : CLType) (a : CLValue) :
    encodeAux (fuel + 1) (.Tuple1 t1) (.vTuple1 a) = encodeAux fuel t1 a := rfl

theorem encAux_tup2 (fuel : Nat) (t1 t2 : CLType) (a b : CLValue) :
    encodeAux (fuel + 1) (.Tuple2 t1 t2) (.vTuple2 a b)
      = (encodeAux fuel t1 a >>= fun x =>
          encodeAux fuel t2 b >>= fun y => .ok (x ++ y)) := rfl

theorem encAux_tup3 (fuel : Nat) (t1 t2 t3 : CLType) (a b c : CLValue) :
    encodeAux (fuel + 1) (.Tuple3 t1 t2 t3) (.vTuple3 a b c)
      = (encodeAux fuel t1 a >>= fun x =>
          encodeAux fuel t2 b >>= fun y =>
            encodeAux fuel t3 c >>= fun z => .ok (x ++ y ++ z)) := rfl

theorem decAux_bool_nil (fuel : Nat) :
    decodeAux (fuel + 1) .Bool [] = .error .BufferUnderflow := rfl

theorem decAux_bool_cons (fuel b : Nat) (r : List Nat) :
    decodeAux (fuel + 1) .Bool (b :: r)
      = (if b = 0 then .ok (.vBool false, r)
        else if b = 1 then .ok (.vBool true, r)
        else .error .InvalidTag) := rfl

theorem decAux_i32 (fuel : Nat) (bs : List Nat) :
    decodeAux (fuel + 1) .I32 bs = (decFixedInt 4 bs).map (fun p => (.vI32 p.1, p.2)) := rfl

theorem decAux_i64 (fuel : Nat) (bs : List Nat) :
    decodeAux (fuel + 1) .I64 bs = (decFixedInt 8 bs).map (fun p => (.vI64 p.1, p.2)) := rfl

theorem decAux_u8 (fuel : Nat) (bs : List Nat) :
    decodeAux (fuel + 1) .U8 bs = (decFixedNat 1 bs).map (fun p => (.vU8 p.1, p.2)) := rfl

theorem decAux_u32 (fuel : Nat) (bs : List Nat) :
    decodeAux (fuel + 1) .U32 bs = (decFixedNat 4 bs).map (fun p => (.vU32 p.1, p.2)) := rfl

theorem decAux_u64 (fuel : Nat) (bs : List Nat) :
    decodeAux (fuel + 1) .U64 bs = (decFixedNat 8 bs).map (fun p => (.vU64 p.1, p.2)) := rfl

theorem decAux_u128 (fuel : Nat) (bs : List Nat) :
    decodeAux (fuel + 1) .U128 bs = (decBig 16 bs).map (fun p => (.vU128 p.1, p.2)) := rfl

theorem decAux_u256 (fuel : Nat) (bs : List Nat) :
    decodeAux (fuel + 1) .U256 bs = (decBig 32 bs).map (fun p => (.vU256 p.1, p.2)) := rfl

theorem decAux_u512 (fuel : Nat) (bs : List Nat) :
    decodeAux (fuel + 1) .U512 bs = (decBig 64 bs).map (fun p => (.vU512 p.1, p.2)) := rfl

theorem decAux_unit (fuel : Nat) (bs : List Nat) :
    decodeAux (fuel + 1) .Unit bs = .ok (.vUnit, bs) := rfl

theorem decAux_string (fuel : Nat) (bs : List Nat) :
    decodeAux (fuel + 1) .String bs
      = (readN 4 bs >>= fun p =>
          readN (leNat p.1) p.2 >>= fun q =>
            utf8Decode q.1 >>= fun cs => .ok (.vStr cs, q.2)) := rfl

theorem decAux_key_nil (fuel : Nat) :
    decodeAux (fuel + 1) .Key [] = .error .BufferUnderflow := rfl

theorem decAux_key_cons (fuel tag : Nat) (r : List Nat) :
    decodeAux (fuel + 1) .Key (tag :: r)
      = (if tag = 0 ∨ tag = 1 then (readN 32 r).map (fun p => (.vKey tag p.1, p.2))
        else if tag = 2 then (readN 33 r).map (fun p => (.vKey tag p.1, p.2))
        else .error .InvalidTag) := rfl

theorem decAux_uref (fuel : Nat) (bs : List Nat) :
    decodeAux (fuel + 1) .URef bs
      = (readN 32 bs >>= fun p =>
          (decFixedNat 1 p.2).map (fun q => (.vURef p.1 q.1, q.2))) := rfl

theorem decAux_pk_nil (fuel : Nat) :
    decodeAux (fuel + 1) .PublicKey [] = .error .BufferUnderflow := rfl

theorem decAux_pk_cons (fuel alg : Nat) (r : List Nat) :
    decodeAux (fuel + 1) .PublicKey (alg :: r)
      = (if alg = 1 then (readN 32 r).map (fun p => (.vPublicKey 1 p.1, p.2))
        else if alg = 2 then (readN 33 r).map (fun p => (.vPublicKey 2 p.1, p.2))
        else .error .InvalidTag) := rfl

theorem decAux_opt_nil (fuel : Nat) (t : CLType) :
    decodeAux (fuel + 1) (.Option t) [] = .error .BufferUnderflow := rfl

theorem decAux_opt_zero (fuel : Nat) (t : CLType) (r : List Nat) :
    decodeAux (fuel + 1) (.Option t) (0 :: r) = .ok (.vOption none, r) := rfl

theorem decAux_opt_one (fuel : Nat) (t : CLType) (r : List Nat) :
    decodeAux (fuel + 1) (.Option t) (1 :: r)
      = (decodeAux fuel t r).map (fun p => (.vOption (some p.1), p.2)) := rfl

theorem decAux_opt_other (fuel : Nat) (t : CLType) (b : Nat) (r : List Nat)
    (h0 : b ≠ 0) (h1 : b ≠ 1) :
    decodeAux (fuel + 1) (.Option t) (b :: r) = .error .InvalidTag := by
  cases b with
  | zero => exact absurd rfl h0
  | succ b1 =>
      cases b1 with
      | zero => exact absurd rfl h1
      | succ b2 => rfl

theorem decAux_list (fuel : Nat) (t : CLType) (bs : List Nat) :
    decodeAux (fuel + 1) (.List t) bs
      = (readN 4 bs >>= fun p =>
          (decodeSeq (decodeAux fuel t) (leNat p.1) p.2).map (fun q => (.vList q.1, q.2))) := rfl

theorem decAux_bytearray (fuel n : Nat) (bs : List Nat) :
    decodeAux (fuel + 1) (.ByteArray n) bs
      = (readN n bs).map (fun p => (.vByteArray p.1, p.2)) := rfl

theorem decAux_result_nil (fuel : Nat) (t e : CLType) :
    decodeAux (fuel + 1) (.Result t e) [] = .error .BufferUnderflow := rfl

theorem decAux_result_zero (fuel : Nat) (t e : CLType) (r : List Nat) :
    decodeAux (fuel + 1) (.Result t e) (0 :: r)
      = (decodeAux fuel e r).map (fun p => (.vResult false p.1, p.2)) := rfl

theorem decAux_result_one (fuel : Nat) (t e : CLType) (r : List Nat) :
    decodeAux (fuel + 1) (.Result t e) (1 :: r)
      = (decodeAux fuel t r).map (fun p => (.vResult true p.1, p.2)) := rfl

theorem decAux_result_other (fuel : Nat) (t e : CLType) (b : Nat) (r : List Nat)
    (h0 : b ≠ 0) (h1 : b ≠ 1) :
    decodeAux (fuel + 1) (.Result t e) (b :: r) = .error .InvalidTag := by
  cases b with
  | zero => exact absurd rfl h0
  | succ b1 =>
      cases b1 with
      | zero => exact absurd rfl h1
      | succ b2 => rfl

theorem decAux_map (fuel : Nat) (k v : CLType) (bs : List Nat) :
    decodeAux (fuel + 1) (.Map k v) bs
      = (readN 4 bs >>= fun p =>
          (decodeKVSeq (decodeAux fuel k) (decodeAux fuel v) (leNat p.1) p.2).map
            (fun q => (.vMap q.1, q.2))) := rfl

theorem decAux_tup1 (fuel : Nat) (t1 : CLType) (bs : List Nat) :
    decodeAux (fuel + 1) (.Tuple1 t1) bs
      = (decodeAux fuel t1 bs).map (fun p => (.vTuple1 p.1, p.2)) := rfl

theorem decAux_tup2 (fuel : Nat) (t1 t2 : CLType) (bs : List Nat) :
    decodeAux (fuel + 1) (.Tuple2 t1 t2) bs
      = (decodeAux fuel t1 bs >>= fun p =>
          decodeAux fuel t2 p.2 >>= fun q => .ok (.vTuple2 p.1 q.1, q.2)) := rfl

theorem decAux_tup3 (fuel : Nat) (t1 t2 t3 : CLType) (bs : List Nat) :
    decodeAux (fuel + 1) (.Tuple3 t1 t2 t3) bs
      = (decodeAux fuel t1 bs >>= fun p =>
          decodeAux fuel t2 p.2 >>= fun q =>
            decodeAux fuel t3 q.2 >>= fun w => .ok (.vTuple3 p.1 q.1 w.1, w.2)) := rfl

theorem decAux_any (fuel : Nat) (bs : List Nat) :
    decodeAux (fuel + 1) .Any bs = .error .TypeMismatch := rfl

theorem nestDepth_pos (d : CLType) : 1 ≤ nestDepth d := by
  cases d <;> simp [nestDepth]

set_option maxRecDepth 4000 in
/-- Core round-trip invariant of the dispatcher: on every structurally valid
value, encoding succeeds and decoding the produced bytes (with any suffix)
returns the original value with exactly the suffix left over. -/
theorem rtGo : ∀ (fuel : Nat) (d : CLType) (v : CLValue), nestDepth d ≤ fuel →
    ValidVAux fuel d v = true →
    ∃ bs, encodeAux fuel d v = .ok bs ∧
      ∀ rest, decodeAux fuel d (bs ++ rest) = .ok (v, rest) := by
  intro fuel
  induction fuel with
  | zero =>
      intro d v hd hv
      have := nestDepth_pos d
      omega
  | succ f ih =>
      intro d v hd hv
      cases d with
      | Bool =>
          cases v
          case vBool b =>
            cases b
            · exact ⟨[0], rfl, fun rest => rfl⟩
            · exact ⟨[1], rfl, fun rest => rfl⟩
          all_goals exact Bool.noConfusion hv
      | I32 =>
          cases v
          case vI32 n =>
            have hv' : fitsWidth n 4 true = true := hv
            refine ⟨encFixedInt 4 n, ?_, fun rest => ?_⟩
            · rw [encAux_i32, if_pos hv']
            · rw [decAux_i32, decFixedInt_rt 4 n rest (by norm_num) hv', emap_ok]
          all_goals exact Bool.noConfusion hv
      | I64 =>
          cases v
          case vI64 n =>
            have hv' : fitsWidth n 8 true = true := hv
            refine ⟨encFixedInt 8 n, ?_, fun rest => ?_⟩
            · rw [encAux_i64, if_pos hv']
            · rw [decAux_i64, decFixedInt_rt 8 n rest (by norm_num) hv', emap_ok]
          all_goals exact Bool.noConfusion hv
      | U8 =>
          cases v
          case vU8 n =>
            have hv' : n < 2 ^ 8 := of_decide_eq_true hv
            refine ⟨natLE 1 n, ?_, fun rest => ?_⟩
            · rw [encAux_u8, if_pos hv']
            · rw [decAux_u8, decFixedNat_rt 1 n rest (by omega), emap_ok]
          all_goals exact Bool.noConfusion hv
      | U32 =>
          cases v
          case vU32 n =>
            have hv' : n < 2 ^ 32 := of_decide_eq_true hv
            refine ⟨natLE 4 n, ?_, fun rest => ?_⟩
            · rw [encAux_u32, if_pos hv']
            · rw [decAux_u32, decFixedNat_rt 4 n rest (by omega), emap_ok]
          all_goals exact Bool.noConfusion hv
      | U64 =>
          cases v
          case vU64 n =>
            have hv' : n < 2 ^ 64 := of_decide_eq_true hv
            refine ⟨natLE 8 n, ?_, fun rest => ?_⟩
            · rw [encAux_u64, if_pos hv']
            · rw [decAux_u64, decFixedNat_rt 8 n rest (by omega), emap_ok]
          all_goals exact Bool.noConfusion hv
      | U128 =>
          cases v
          case vU128 n =>
            have hv' : n < 2 ^ 128 := of_decide_eq_true hv
            refine ⟨minLen n :: natLE (minLen n) n, ?_, fun rest => ?_⟩
            · rw [encAux_u128, encBig, if_pos (show n < 2 ^ (8 * 16) by omega)]
            · rw [decAux_u128, decBig_rt 16 n rest (by norm_num) (by omega), emap_ok]
          all_goals exact Bool.noConfusion hv
      | U256 =>
          cases v
          case vU256 n =>
            have hv' : n < 2 ^ 256 := of_decide_eq_true hv
            refine ⟨minLen n :: natLE (minLen n) n, ?_, fun rest => ?_⟩
            · rw [encAux_u256, encBig, if_pos (show n < 2 ^ (8 * 32) by omega)]
            · rw [decAux_u256, decBig_rt 32 n rest (by norm_num) (by omega), emap_ok]
          all_goals exact Bool.noConfusion hv
      | U512 =>
          cases v
          case vU512 n =>
            have hv' : n < 2 ^ 512 := of_decide_eq_true hv
            refine ⟨minLen n :: natLE (minLen n) n, ?_, fun rest => ?_⟩
            · rw [encAux_u512, encBig, if_pos (show n < 2 ^ (8 * 64) by omega)]
            · rw [decAux_u512, decBig_rt 64 n rest (by norm_num) (by omega), emap_ok]
          all_goals exact Bool.noConfusion hv
      | Unit =>
          cases v
          case vUnit => exact ⟨[], rfl, fun rest => rfl⟩
          all_goals exact Bool.noConfusion hv
      | String =>
          cases v
          case vStr cs =>
            have hv' : (cs.all isScalar && decide ((utf8Encode cs).length < 2 ^ 32)) = true := hv
            simp only [Bool.and_eq_true, decide_eq_true_eq] at hv'
            obtain ⟨hall, hlen⟩ := hv'
            refine ⟨natLE 4 (utf8Encode cs).length ++ utf8Encode cs, ?_, fun rest => ?_⟩
            · rw [encAux_string, if_pos hall, if_pos hlen]
            · rw [decAux_string, List.append_assoc,
                readN_exact _ _ 4 (natLE_length 4 _), ebind_ok]
              simp only []
              rw [leNat_natLE 4 _ (by omega), readN_exact _ _ _ rfl, ebind_ok]
              simp only []
              rw [utf8Decode_encode cs hall, ebind_ok]
          all_goals exact Bool.noConfusion hv
      | Key =>
          cases v
          case vKey tag payload =>
            have hv' : (((tag == 0 || tag == 1) && payload.length == 32
                  || tag == 2 && payload.length == 33)
                && payload.all (fun b => decide (b < 256))) = true := hv
            refine ⟨tag :: payload, by rw [encAux_key, if_pos hv'], fun rest => ?_⟩
            simp only [Bool.and_eq_true, Bool.or_eq_true, beq_iff_eq] at hv'
            rw [List.cons_append, decAux_key_cons]
            rcases hv'.1 with ⟨htag, hlen⟩ | ⟨htag, hlen⟩
            · rw [if_pos (by simpa using htag), readN_exact _ _ 32 hlen, emap_ok]
            · rw [if_neg (by omega), if_pos htag, readN_exact _ _ 33 hlen, emap_ok]
          all_goals exact Bool.noConfusion hv
      | URef =>
          cases v
          case vURef addr rights =>
            have hv' : (addr.length == 32 && addr.all (fun b => decide (b < 256))
                && decide (rights < 256)) = true := hv
            refine ⟨addr ++ [rights], by rw [encAux_uref, if_pos hv'], fun rest => ?_⟩
            simp only [Bool.and_eq_true, beq_iff_eq, decide_eq_true_eq] at hv'
            obtain ⟨⟨hlen, _⟩, hr⟩ := hv'
            rw [decAux_uref, List.append_assoc, readN_exact _ _ 32 hlen, ebind_ok]
            simp only []
            have hnat : natLE 1 rights = [rights] := by
              have h1 : natLE 1 rights = [rights / 2 ^ (8 * 0) % 256] := rfl
              rw [h1]
              simp [Nat.mod_eq_of_lt hr]
            have hlist : ([rights] : List Nat) ++ rest = natLE 1 rights ++ rest := by
              rw [hnat]
            rw [List.singleton_append] at hlist
            rw [List.singleton_append, hlist, decFixedNat_rt 1 rights rest (by omega), emap_ok]
          all_goals exact Bool.noConfusion hv
      | PublicKey =>
          cases v
          case vPublicKey alg kb =>
            have hv' : ((alg == 1 && kb.length == 32 || alg == 2 && kb.length == 33)
                && kb.all (fun b => decide (b < 256))) = true := hv
            refine ⟨alg :: kb, by rw [encAux_pk, if_pos hv'], fun rest => ?_⟩
            simp only [Bool.and_eq_true, Bool.or_eq_true, beq_iff_eq] at hv'
            rw [List.cons_append, decAux_pk_cons]
            rcases hv'.1 with ⟨htag, hlen⟩ | ⟨htag, hlen⟩
            · subst htag
              rw [if_pos rfl, readN_exact _ _ 32 hlen, emap_ok]
            · subst htag
              rw [if_neg (by omega), if_pos rfl, readN_exact _ _ 33 hlen, emap_ok]
          all_goals exact Bool.noConfusion hv
      | Option t =>
          have hdt : nestDepth t ≤ f := by
            rw [nestDepth] at hd
            omega
          cases v
          case vOption o =>
            cases o with
            | none =>
                refine ⟨[0], by rw [encAux_opt_none], fun rest => ?_⟩
                rw [List.cons_append, List.nil_append, decAux_opt_zero]
            | some w =>
                have hv' : ValidVAux f t w = true := hv
                obtain ⟨bw, hew, hdw⟩ := ih t w hdt hv'
                refine ⟨1 :: bw, ?_, fun rest => ?_⟩
                · rw [encAux_opt_some, hew, emap_ok]
                · rw [List.cons_append, decAux_opt_one, hdw, emap_ok]
          all_goals exact Bool.noConfusion hv
      | List t =>
          have hdt : nestDepth t ≤ f := by
            rw [nestDepth] at hd
            omega
          cases v
          case vList vs =>
            have hv' : (decide (vs.length < 2 ^ 32) && validSeq (ValidVAux f t) vs) = true := hv
            simp only [Bool.and_eq_true, decide_eq_true_eq] at hv'
            obtain ⟨hlen, hve⟩ := hv'
            have hseq : ∀ vs2, validSeq (ValidVAux f t) vs2 = true →
                ∃ bs, encodeSeq (encodeAux f t) vs2 = .ok bs ∧
                  ∀ rest, decodeSeq (decodeAux f t) vs2.length (bs ++ rest)
                    = .ok (vs2, rest) := by
              intro vs2
              induction vs2 with
              | nil =>
                  intro _
                  exact ⟨[], rfl, fun rest => by rw [List.nil_append]; rfl⟩
              | cons w ws ihw =>
                  intro hvw
                  simp only [validSeq, Bool.and_eq_true] at hvw
                  obtain ⟨bw, hew, hdw⟩ := ih t w hdt hvw.1
                  obtain ⟨bws, hews, hdws⟩ := ihw hvw.2
                  refine ⟨bw ++ bws, ?_, fun rest => ?_⟩
                  · rw [encodeSeq]
                    simp only [hew, hews, ebind_ok]
                  · rw [List.length_cons, decodeSeq, List.append_assoc]
                    simp only [hdw, hdws, ebind_ok]
            obtain ⟨bsl, hesl, hdsl⟩ := hseq vs hve
            refine ⟨natLE 4 vs.length ++ bsl, ?_, fun rest => ?_⟩
            · rw [encAux_list, if_pos hlen, hesl, emap_ok]
            · rw [decAux_list, List.append_assoc, readN_exact _ _ 4 (natLE_length 4 _),
                ebind_ok]
              simp only []
              rw [leNat_natLE 4 _ (by omega), hdsl, emap_ok]
          all_goals exact Bool.noConfusion hv
      | ByteArray n =>
          cases v
          case vByteArray bs =>
            have hv' : (bs.length == n && bs.all (fun b => decide (b < 256))) = true := hv
            refine ⟨bs, by rw [encAux_bytearray, if_pos hv'], fun rest => ?_⟩
            simp only [Bool.and_eq_true, beq_iff_eq] at hv'
            rw [decAux_bytearray, readN_exact _ _ n hv'.1, emap_ok]
          all_goals exact Bool.noConfusion hv
      | Result t e =>
          have hdt : nestDepth t ≤ f ∧ nestDepth e ≤ f := by
            rw [nestDepth] at hd
            omega
          cases v
          case vResult isOk w =>
            cases isOk
            · have hv' : ValidVAux f e w = true := hv
              obtain ⟨bw, hew, hdw⟩ := ih e w hdt.2 hv'
              refine ⟨0 :: bw, ?_, fun rest => ?_⟩
              · rw [encAux_result_err, hew, emap_ok]
              · rw [List.cons_append, decAux_result_zero, hdw, emap_ok]
            · have hv' : ValidVAux f t w = true := hv
              obtain ⟨bw, hew, hdw⟩ := ih t w hdt.1 hv'
              refine ⟨1 :: bw, ?_, fun rest => ?_⟩
              · rw [encAux_result_ok, hew, emap_ok]
              · rw [List.cons_append, decAux_result_one, hdw, emap_ok]
          all_goals exact Bool.noConfusion hv
      | Map k vt =>
          have hdt : nestDepth k ≤ f ∧ nestDepth vt ≤ f := by
            rw [nestDepth] at hd
            omega
          cases v
          case vMap kvs =>
            have hv' : (decide (kvs.length < 2 ^ 32)
                && validKVSeq (ValidVAux f k) (ValidVAux f vt) kvs) = true := hv
            simp only [Bool.and_eq_true, decide_eq_true_eq] at hv'
            obtain ⟨hlen, hve⟩ := hv'
            have hseq : ∀ kvs2, validKVSeq (ValidVAux f k) (ValidVAux f vt) kvs2 = true →
                ∃ bs, encodeKVSeq (encodeAux f k) (encodeAux f vt) kvs2 = .ok bs ∧
                  ∀ rest, decodeKVSeq (decodeAux f k) (decodeAux f vt) kvs2.length (bs ++ rest)
                    = .ok (kvs2, rest) := by
              intro kvs2
              induction kvs2 with
              | nil =>
                  intro _
                  exact ⟨[], rfl, fun rest => by rw [List.nil_append]; rfl⟩
              | cons p pvs ihp =>
                  intro hvw
                  obtain ⟨a, b⟩ := p
                  simp only [validKVSeq, Bool.and_eq_true] at hvw
                  obtain ⟨ba, hea, hda⟩ := ih k a hdt.1 hvw.1.1
                  obtain ⟨bb, heb, hdb⟩ := ih vt b hdt.2 hvw.1.2
                  obtain ⟨bps, heps, hdps⟩ := ihp hvw.2
                  refine ⟨ba ++ bb ++ bps, ?_, fun rest => ?_⟩
                  · rw [encodeKVSeq]
                    simp only [hea, heb, heps, ebind_ok]
                  · rw [List.length_cons, decodeKVSeq, List.append_assoc, List.append_assoc]
                    simp only [hda, hdb, hdps, ebind_ok]
            obtain ⟨bsm, hesm, hdsm⟩ := hseq kvs hve
            refine ⟨natLE 4 kvs.length ++ bsm, ?_, fun rest => ?_⟩
            · rw [encAux_map, if_pos hlen, hesm, emap_ok]
            · rw [decAux_map, List.append_assoc, readN_exact _ _ 4 (natLE_length 4 _),
                ebind_ok]
              simp only []
              rw [leNat_natLE 4 _ (by omega), hdsm, emap_ok]
          all_goals exact Bool.noConfusion hv
      | Tuple1 t1 =>
          have hdt : nestDepth t1 ≤ f := by
            rw [nestDepth] at hd
            omega
          cases v
          case vTuple1 a =>
            have hv' : ValidVAux f t1 a = true := hv
            obtain ⟨ba, hea, hda⟩ := ih t1 a hdt hv'
            refine ⟨ba, ?_, fun rest => ?_⟩
            · rw [encAux_tup1, hea]
            · rw [decAux_tup1, hda, emap_ok]
          all_goals exact Bool.noConfusion hv
      | Tuple2 t1 t2 =>
          have hdt : nestDepth t1 ≤ f ∧ nestDepth t2 ≤ f := by
            rw [nestDepth] at hd
            omega
          cases v
          case vTuple2 a b =>
            have hv' : (ValidVAux f t1 a && ValidVAux f t2 b) = true := hv
            simp only [Bool.and_eq_true] at hv'
            obtain ⟨ba, hea, hda⟩ := ih t1 a hdt.1 hv'.1
            obtain ⟨bb, heb, hdb⟩ := ih t2 b hdt.2 hv'.2
            refine ⟨ba ++ bb, ?_, fun rest => ?_⟩
            · rw [encAux_tup2]
              simp only [hea, heb, ebind_ok]
            · rw [decAux_tup2, List.append_assoc]
              simp only [hda, hdb, ebind_ok]
          all_goals exact Bool.noConfusion hv
      | Tuple3 t1 t2 t3 =>
          have hdt : nestDepth t1 ≤ f ∧ nestDepth t2 ≤ f ∧ nestDepth t3 ≤ f := by
            rw [nestDepth] at hd
            omega
          cases v
          case vTuple3 a b c =>
            have hv' : (ValidVAux f t1 a && ValidVAux f t2 b && ValidVAux f t3 c) = true := hv
            simp only [Bool.and_eq_true] at hv'
            obtain ⟨ba, hea, hda⟩ := ih t1 a hdt.1 hv'.1.1
            obtain ⟨bb, heb, hdb⟩ := ih t2 b hdt.2.1 hv'.1.2
            obtain ⟨bc, hec, hdc⟩ := ih t3 c hdt.2.2 hv'.2
            refine ⟨ba ++ bb ++ bc, ?_, fun rest => ?_⟩
            · rw [encAux_tup3]
              simp only [hea, heb, hec, ebind_ok]
            · rw [decAux_tup3, List.append_assoc, List.append_assoc]
              simp only [hda, hdb, hdc, ebind_ok]
          all_goals exact Bool.noConfusion hv
      | Any =>
          cases v <;> exact Bool.noConfusion hv

/-- C1: round-trip law.  For every supported descriptor (one within the
nesting-depth bound, §4.5) and every native value in its domain, decoding
the bytes produced by encoding yields an observationally equal value
together with a consumed-byte count exactly equal to the encoded length —
no trailing slack, no under-read. -/
theorem roundtrip_law (d : CLType) (v : CLValue)
    (hd : nestDepth d ≤ MAX_NESTING_DEPTH) (hv : ValidV d v = true) :
    ∃ bs, encode d v = .ok bs ∧ decode d bs = .ok (v, bs.length) := by
  obtain ⟨bs, he, hdec⟩ := rtGo MAX_NESTING_DEPTH d v hd hv
  refine ⟨bs, ?_, ?_⟩
  · rw [encode, if_neg (by omega)]
    exact he
  · rw [decode, if_neg (by omega)]
    have hnil := hdec []
    rw [List.append_nil] at hnil
    rw [hnil, emap_ok]
    simp

/-- Witness for C1 at the spec's §8 nested composite scenario,
`Some [1u64, 2u64]` under `Option(List(U64))`. -/
theorem roundtrip_law_witness :
    nestDepth (.Option (.List .U64)) ≤ MAX_NESTING_DEPTH ∧
    ValidV (.Option (.List .U64)) (.vOption (some (.vList [.vU64 1, .vU64 2]))) = true ∧
    ∃ bs, encode (.Option (.List .U64)) (.vOption (some (.vList [.vU64 1, .vU64 2]))) = .ok bs ∧
      decode (.Option (.List .U64)) bs
        = .ok (.vOption (some (.vList [.vU64 1, .vU64 2])), bs.length) :=
  ⟨by decide, by decide,
    roundtrip_law (.Option (.List .U64)) (.vOption (some (.vList [.vU64 1, .vU64 2])))
      (by decide) (by decide)⟩

theorem natLE_getLast (len n : Nat) (hlen : 1 ≤ len) :
    (natLE len n).getLast? = some (n / 2 ^ (8 * (len - 1)) % 256) := by
  rw [List.getLast?_eq_getElem?, natLE_length, natLE, List.getElem?_map,
    List.getElem?_range (by omega)]
  rfl

/-- C5: minimality of the big-integer encoding.  The length-prefix byte is
the true minimal byte count of the magnitude (witnessed by the two power
bounds), the magnitude field has exactly that many bytes and denotes the
value, and its most significant byte is never a superfluous zero — except
for the value zero, canonically encoded as prefix `1` + single zero byte. -/
theorem encBig_minimal (maxB n : Nat) (h : n < 2 ^ (8 * maxB)) :
    ∃ mag, encBig maxB n = .ok (minLen n :: mag) ∧
      mag.length = minLen n ∧ leNat mag = n ∧
      (n = 0 → minLen n = 1 ∧ mag = [0]) ∧
      (n ≠ 0 → minLen n = byteLen n ∧ n < 2 ^ (8 * byteLen n) ∧
        2 ^ (8 * (byteLen n - 1)) ≤ n ∧ mag.getLast? ≠ some 0) := by
  refine ⟨natLE (minLen n) n, by rw [encBig, if_pos h], natLE_length _ _,
    leNat_natLE _ _ (lt_pow_minLen n), ?_, ?_⟩
  · intro h0
    subst h0
    exact ⟨rfl, rfl⟩
  · intro h0
    have hml : minLen n = byteLen n := by rw [minLen, if_neg h0]
    have hpos : 1 ≤ byteLen n := byteLen_pos n h0
    have hlow : 2 ^ (8 * (byteLen n - 1)) ≤ n := byteLen_min n h0
    have hhigh : n < 2 ^ (8 * byteLen n) := byteLen_lt n
    refine ⟨hml, hhigh, hlow, ?_⟩
    rw [hml, natLE_getLast _ _ hpos]
    have hq1 : 1 ≤ n / 2 ^ (8 * (byteLen n - 1)) := (Nat.one_le_div_iff (by positivity)).mpr hlow
    have hq2 : n / 2 ^ (8 * (byteLen n - 1)) < 256 := by
      have hsplit : 2 ^ (8 * byteLen n) = 2 ^ (8 * (byteLen n - 1)) * 256 := by
        rw [show 8 * byteLen n = 8 * (byteLen n - 1) + 8 by omega, pow_add]
        norm_num
      apply Nat.div_lt_of_lt_mul
      omega
    intro hcontra
    have := Option.some.inj hcontra
    omega

/-- Witness for C5 at `n = 258` (two magnitude bytes) within the U128 width. -/
theorem encBig_minimal_witness :
    (258 : Nat) < 2 ^ (8 * 16) ∧
    ∃ mag, encBig 16 258 = .ok (minLen 258 :: mag) ∧
      mag.length = minLen 258 ∧ leNat mag = 258 ∧
      ((258 : Nat) = 0 → minLen 258 = 1 ∧ mag = [0]) ∧
      ((258 : Nat) ≠ 0 → minLen 258 = byteLen 258 ∧ 258 < 2 ^ (8 * byteLen 258) ∧
        2 ^ (8 * (byteLen 258 - 1)) ≤ 258 ∧ mag.getLast? ≠ some 0) :=
  ⟨by decide, encBig_minimal 16 258 (by decide)⟩

/-- C6: big-integer decode.  The first byte is the length prefix `n`:
`InvalidLength` when `n` exceeds the width's maximum byte count, otherwise
exactly `n` further magnitude bytes are consumed, with `BufferUnderflow`
when fewer remain; the U128/U256/U512 decoders are this decoder at maximum
byte counts 16/32/64. -/
theorem decBig_spec (maxB n : Nat) (r : List Nat) :
    (maxB < n → decBig maxB (n :: r) = .error .InvalidLength) ∧
    (n ≤ maxB → r.length < n → decBig maxB (n :: r) = .error .BufferUnderflow) ∧
    (n ≤ maxB → n ≤ r.length → decBig maxB (n :: r) = .ok (leNat (r.take n), r.drop n)) ∧
    (∀ fuel bs, decodeAux (fuel + 1) .U128 bs
      = (decBig 16 bs).map (fun p => (.vU128 p.1, p.2))) ∧
    (∀ fuel bs, decodeAux (fuel + 1) .U256 bs
      = (decBig 32 bs).map (fun p => (.vU256 p.1, p.2))) ∧
    (∀ fuel bs, decodeAux (fuel + 1) .U512 bs
      = (decBig 64 bs).map (fun p => (.vU512 p.1, p.2))) := by
  refine ⟨?_, ?_, ?_, fun _ _ => rfl, fun _ _ => rfl, fun _ _ => rfl⟩
  · intro h
    rw [decBig, if_pos h]
  · intro h1 h2
    rw [decBig, if_neg (by omega), readN_short _ _ h2, emap_err]
  · intro h1 h2
    rw [decBig, if_neg (by omega), readN, if_neg (by omega), emap_ok]

theorem decFixedNat_under (len : Nat) (bs : List Nat) (h : bs.length < len) :
    decFixedNat len bs = .error .BufferUnderflow := by
  rw [decFixedNat, readN_short _ _ h, emap_err]

theorem decFixedNat_split (len : Nat) (bs : List Nat) (h : len ≤ bs.length) :
    decFixedNat len bs = .ok (leNat (bs.take len), bs.drop len) := by
  rw [decFixedNat, readN, if_neg (by omega), emap_ok]

theorem decodeSeq_u64_underflow (fuel : Nat) :
    ∀ (c : Nat) (r : List Nat), r.length < 8 * c →
      decodeSeq (decodeAux (fuel + 1) .U64) c r = .error .BufferUnderflow := by
  intro c
  induction c with
  | zero =>
      intro r h
      omega
  | succ c ih =>
      intro r h
      rw [decodeSeq]
      by_cases hlt : r.length < 8
      · rw [decAux_u64, decFixedNat_under 8 r hlt, emap_err, ebind_err]
      · rw [decAux_u64, decFixedNat_split 8 r (by omega), emap_ok, ebind_ok]
        simp only []
        rw [ih (r.drop 8) (by simp; omega), ebind_err]

/-- C7: decoding a `List(U64)` whose 4-byte count prefix claims more
elements than the remaining buffer can supply proceeds element-by-element
and fails with `BufferUnderflow` once the buffer is exhausted; in the
embedding every read is bounds-checked (`readN`), so no out-of-range access
exists, and no structure is allocated from the untrusted count alone. -/
theorem decode_list_underflow (c : Nat) (r : List Nat) (hc : c < 2 ^ 32)
    (h : r.length < 8 * c) :
    decode (.List .U64) (natLE 4 c ++ r) = .error .BufferUnderflow := by
  rw [decode, if_neg (by decide),
    show (MAX_NESTING_DEPTH : Nat) = 31 + 1 from rfl,
    decAux_list, readN_exact _ _ 4 (natLE_length 4 c), ebind_ok]
  simp only []
  rw [leNat_natLE 4 c (by omega),
    show (31 : Nat) = 30 + 1 from rfl,
    decodeSeq_u64_underflow 30 c r h, emap_err, emap_err]

/-- Witness for C7: a count prefix of 2 with only 9 bytes remaining. -/
theorem decode_list_underflow_witness :
    (2 : Nat) < 2 ^ 32 ∧ ([0, 0, 0, 0, 0, 0, 0, 0, 0] : List Nat).length < 8 * 2 ∧
    decode (.List .U64) (natLE 4 2 ++ [0, 0, 0, 0, 0, 0, 0, 0, 0])
      = .error .BufferUnderflow :=
  ⟨by decide, by decide, decode_list_underflow 2 [0, 0, 0, 0, 0, 0, 0, 0, 0] (by decide) (by decide)⟩

/-! ### The depth guard never fires within the nesting bound -/

theorem emap_ne_deep {α β : Type} (x : Except CLErr α) (f : α → β)
    (h : x ≠ .error .ExcessiveNestingDepth) :
    x.map f ≠ .error .ExcessiveNestingDepth := by
  cases x with
  | ok a => rw [emap_ok]; simp
  | error e =>
      rw [emap_err]
      intro hcontra
      exact h (by rw [Except.error.inj hcontra])

theorem ebind_ne_deep {α β : Type} (x : Except CLErr α) (g : α → Except CLErr β)
    (hx : x ≠ .error .ExcessiveNestingDepth)
    (hg : ∀ a, g a ≠ .error .ExcessiveNestingDepth) :
    (x >>= g) ≠ .error .ExcessiveNestingDepth := by
  cases x with
  | ok a => rw [ebind_ok]; exact hg a
  | error e =>
      rw [ebind_err]
      intro hcontra
      exact hx (by rw [Except.error.inj hcontra])

theorem readN_ne_deep (n : Nat) (bs : List Nat) :
    readN n bs ≠ .error .ExcessiveNestingDepth := by
  rw [readN]
  split <;> simp

theorem decFixedNat_ne_deep (len : Nat) (bs : List Nat) :
    decFixedNat len bs ≠ .error .ExcessiveNestingDepth := by
  rw [decFixedNat]
  exact emap_ne_deep _ _ (readN_ne_deep len bs)

theorem decFixedInt_ne_deep (len : Nat) (bs : List Nat) :
    decFixedInt len bs ≠ .error .ExcessiveNestingDepth := by
  rw [decFixedInt]
  exact emap_ne_deep _ _ (readN_ne_deep len bs)

theorem decBig_ne_deep (maxB : Nat) (bs : List Nat) :
    decBig maxB bs ≠ .error .ExcessiveNestingDepth := by
  cases bs with
  | nil => rw [decBig]; simp
  | cons n r =>
      rw [decBig]
      split
      · simp
      · exact emap_ne_deep _ _ (readN_ne_deep n r)

theorem utf8DecodeAux_none_step (fuel b0 : Nat) (r : List Nat)
    (h : decodeOne (b0 :: r) = none) :
    utf8DecodeAux (fuel + 1) (b0 :: r) = .error .MalformedUTF8 := by
  have hstep : utf8DecodeAux (fuel + 1) (b0 :: r) =
      match decodeOne (b0 :: r) with
      | none => .error .MalformedUTF8
      | some (c, r2) => (utf8DecodeAux fuel r2).map (fun cs => c :: cs) := rfl
  rw [hstep, h]

theorem utf8DecodeAux_ne_deep : ∀ (fuel : Nat) (bs : List Nat),
    utf8DecodeAux fuel bs ≠ .error .ExcessiveNestingDepth := by
  intro fuel
  induction fuel with
  | zero =>
      intro bs
      cases bs with
      | nil => intro hcontra; exact Except.noConfusion hcontra
      | cons b r => intro hcontra; exact CLErr.noConfusion (Except.error.inj hcontra)
  | succ f ihf =>
      intro bs
      cases bs with
      | nil => intro hcontra; exact Except.noConfusion hcontra
      | cons b0 r =>
          cases hdec : decodeOne (b0 :: r) with
          | none => rw [utf8DecodeAux_none_step f b0 r hdec]; simp
          | some p =>
              obtain ⟨c, r2⟩ := p
              rw [utf8DecodeAux_some f b0 c r r2 hdec]
              exact emap_ne_deep _ _ (ihf r2)

theorem utf8Decode_ne_deep (bs : List Nat) :
    utf8Decode bs ≠ .error .ExcessiveNestingDepth :=
  utf8DecodeAux_ne_deep bs.length bs

theorem encodeSeq_ne_deep (f : CLValue → Except CLErr (List Nat))
    (hf : ∀ v, f v ≠ .error .ExcessiveNestingDepth) :
    ∀ vs, encodeSeq f vs ≠ .error .ExcessiveNestingDepth := by
  intro vs
  induction vs with
  | nil => intro hcontra; exact Except.noConfusion hcontra
  | cons v vs ih =>
      rw [encodeSeq]
      exact ebind_ne_deep _ _ (hf v) (fun x => ebind_ne_deep _ _ ih (fun y => by simp))

theorem encodeKVSeq_ne_deep (fk fv : CLValue → Except CLErr (List Nat))
    (hk : ∀ v, fk v ≠ .error .ExcessiveNestingDepth)
    (hv : ∀ v, fv v ≠ .error .ExcessiveNestingDepth) :
    ∀ kvs, encodeKVSeq fk fv kvs ≠ .error .ExcessiveNestingDepth := by
  intro kvs
  induction kvs with
  | nil => intro hcontra; exact Except.noConfusion hcontra
  | cons p kvs ih =>
      obtain ⟨a, b⟩ := p
      rw [encodeKVSeq]
      exact ebind_ne_deep _ _ (hk a)
        (fun x => ebind_ne_deep _ _ (hv b) (fun y => ebind_ne_deep _ _ ih (fun z => by simp)))

theorem decodeSeq_ne_deep (f : List Nat → Except CLErr (CLValue × List Nat))
    (hf : ∀ bs, f bs ≠ .error .ExcessiveNestingDepth) :
    ∀ (c : Nat) (bs : List Nat), decodeSeq f c bs ≠ .error .ExcessiveNestingDepth := by
  intro c
  induction c with
  | zero => intro bs hcontra; exact Except.noConfusion hcontra
  | succ c ih =>
      intro bs
      rw [decodeSeq]
      exact ebind_ne_deep _ _ (hf bs) (fun p => ebind_ne_deep _ _ (ih p.2) (fun q => by simp))

theorem decodeKVSeq_ne_deep (fk fv : List Nat → Except CLErr (CLValue × List Nat))
    (hk : ∀ bs, fk bs ≠ .error .ExcessiveNestingDepth)
    (hv : ∀ bs, fv bs ≠ .error .ExcessiveNestingDepth) :
    ∀ (c : Nat) (bs : List Nat), decodeKVSeq fk fv c bs ≠ .error .ExcessiveNestingDepth := by
  intro c
  induction c with
  | zero => intro bs hcontra; exact Except.noConfusion hcontra
  | succ c ih =>
      intro bs
      rw [decodeKVSeq]
      exact ebind_ne_deep _ _ (hk bs)
        (fun p => ebind_ne_deep _ _ (hv p.2) (fun q => ebind_ne_deep _ _ (ih q.2)
          (fun w => by simp)))

theorem encodeAux_ne_deep : ∀ (fuel : Nat) (d : CLType) (v : CLValue),
    nestDepth d ≤ fuel → encodeAux fuel d v ≠ .error .ExcessiveNestingDepth := by
  intro fuel
  induction fuel with
  | zero =>
      intro d v hd
      have := nestDepth_pos d
      omega
  | succ f ih =>
      intro d v hd
      cases d with
      | Bool =>
          cases v
          case vBool b => rw [encAux_bool]; simp
          all_goals intro hcontra; exact CLErr.noConfusion (Except.error.inj hcontra)
      | I32 =>
          cases v
          case vI32 n => rw [encAux_i32]; split <;> simp
          all_goals intro hcontra; exact CLErr.noConfusion (Except.error.inj hcontra)
      | I64 =>
          cases v
          case vI64 n => rw [encAux_i64]; split <;> simp
          all_goals intro hcontra; exact CLErr.noConfusion (Except.error.inj hcontra)
      | U8 =>
          cases v
          case vU8 n => rw [encAux_u8]; split <;> simp
          all_goals intro hcontra; exact CLErr.noConfusion (Except.error.inj hcontra)
      | U32 =>
          cases v
          case vU32 n => rw [encAux_u32]; split <;> simp
          all_goals intro hcontra; exact CLErr.noConfusion (Except.error.inj hcontra)
      | U64 =>
          cases v
          case vU64 n => rw [encAux_u64]; split <;> simp
          all_goals intro hcontra; exact CLErr.noConfusion (Except.error.inj hcontra)
      | U128 =>
          cases v
          case vU128 n => rw [encAux_u128, encBig]; split <;> simp
          all_goals intro hcontra; exact CLErr.noConfusion (Except.error.inj hcontra)
      | U256 =>
          cases v
          case vU256 n => rw [encAux_u256, encBig]; split <;> simp
          all_goals intro hcontra; exact CLErr.noConfusion (Except.error.inj hcontra)
      | U512 =>
          cases v
          case vU512 n => rw [encAux_u512, encBig]; split <;> simp
          all_goals intro hcontra; exact CLErr.noConfusion (Except.error.inj hcontra)
      | Unit =>
          cases v
          case vUnit => rw [encAux_unit]; simp
          all_goals intro hcontra; exact CLErr.noConfusion (Except.error.inj hcontra)
      | String =>
          cases v
          case vStr cs =>
            rw [encAux_string]
            split
            · split <;> simp
            · simp
          all_goals intro hcontra; exact CLErr.noConfusion (Except.error.inj hcontra)
      | Key =>
          cases v
          case vKey tag payload => rw [encAux_key]; split <;> simp
          all_goals intro hcontra; exact CLErr.noConfusion (Except.error.inj hcontra)
      | URef =>
          cases v
          case vURef addr rights => rw [encAux_uref]; split <;> simp
          all_goals intro hcontra; exact CLErr.noConfusion (Except.error.inj hcontra)
      | PublicKey =>
          cases v
          case vPublicKey alg kb => rw [encAux_pk]; split <;> simp
          all_goals intro hcontra; exact CLErr.noConfusion (Except.error.inj hcontra)
      | Option t =>
          have hdt : nestDepth t ≤ f := by rw [nestDepth] at hd; omega
          cases v
          case vOption o =>
            cases o with
            | none => rw [encAux_opt_none]; simp
            | some w => rw [encAux_opt_some]; exact emap_ne_deep _ _ (ih t w hdt)
          all_goals intro hcontra; exact CLErr.noConfusion (Except.error.inj hcontra)
      | List t =>
          have hdt : nestDepth t ≤ f := by rw [nestDepth] at hd; omega
          cases v
          case vList vs =>
            rw [encAux_list]
            split
            · exact emap_ne_deep _ _ (encodeSeq_ne_deep _ (fun w => ih t w hdt) vs)
            · simp
          all_goals intro hcontra; exact CLErr.noConfusion (Except.error.inj hcontra)
      | ByteArray n =>
          cases v
          case vByteArray bs => rw [encAux_bytearray]; split <;> simp
          all_goals intro hcontra; exact CLErr.noConfusion (Except.error.inj hcontra)
      | Result t e =>
          have hdt : nestDepth t ≤ f ∧ nestDepth e ≤ f := by rw [nestDepth] at hd; omega
          cases v
          case vResult isOk w =>
            cases isOk
            · rw [encAux_result_err]; exact emap_ne_deep _ _ (ih e w hdt.2)
            · rw [encAux_result_ok]; exact emap_ne_deep _ _ (ih t w hdt.1)
          all_goals intro hcontra; exact CLErr.noConfusion (Except.error.inj hcontra)
      | Map k vt =>
          have hdt : nestDepth k ≤ f ∧ nestDepth vt ≤ f := by rw [nestDepth] at hd; omega
          cases v
          case vMap kvs =>
            rw [encAux_map]
            split
            · exact emap_ne_deep _ _
                (encodeKVSeq_ne_deep _ _ (fun w => ih k w hdt.1) (fun w => ih vt w hdt.2) kvs)
            · simp
          all_goals intro hcontra; exact CLErr.noConfusion (Except.error.inj hcontra)
      | Tuple1 t1 =>
          have hdt : nestDepth t1 ≤ f := by rw [nestDepth] at hd; omega
          cases v
          case vTuple1 a => rw [encAux_tup1]; exact ih t1 a hdt
          all_goals intro hcontra; exact CLErr.noConfusion (Except.error.inj hcontra)
      | Tuple2 t1 t2 =>
          have hdt : nestDepth t1 ≤ f ∧ nestDepth t2 ≤ f := by rw [nestDepth] at hd; omega
          cases v
          case vTuple2 a b =>
            rw [encAux_tup2]
            exact ebind_ne_deep _ _ (ih t1 a hdt.1)
              (fun x => ebind_ne_deep _ _ (ih t2 b hdt.2) (fun y => by simp))
          all_goals intro hcontra; exact CLErr.noConfusion (Except.error.inj hcontra)
      | Tuple3 t1 t2 t3 =>
          have hdt : nestDepth t1 ≤ f ∧ nestDepth t2 ≤ f ∧ nestDepth t3 ≤ f := by
            rw [nestDepth] at hd; omega
          cases v
          case vTuple3 a b c =>
            rw [encAux_tup3]
            exact ebind_ne_deep _ _ (ih t1 a hdt.1)
              (fun x => ebind_ne_deep _ _ (ih t2 b hdt.2.1)
                (fun y => ebind_ne_deep _ _ (ih t3 c hdt.2.2) (fun z => by simp)))
          all_goals intro hcontra; exact CLErr.noConfusion (Except.error.inj hcontra)
      | Any =>
          cases v <;> (intro hcontra; exact CLErr.noConfusion (Except.error.inj hcontra))

theorem decodeAux_ne_deep : ∀ (fuel : Nat) (d : CLType) (bs : List Nat),
    nestDepth d ≤ fuel → decodeAux fuel d bs ≠ .error .ExcessiveNestingDepth := by
  intro fuel
  induction fuel with
  | zero =>
      intro d bs hd
      have := nestDepth_pos d
      omega
  | succ f ih =>
      intro d bs hd
      cases d with
      | Bool =>
          cases bs with
          | nil => rw [decAux_bool_nil]; simp
          | cons b r => rw [decAux_bool_cons]; split <;> [simp; split <;> simp]
      | I32 => rw [decAux_i32]; exact emap_ne_deep _ _ (decFixedInt_ne_deep 4 bs)
      | I64 => rw [decAux_i64]; exact emap_ne_deep _ _ (decFixedInt_ne_deep 8 bs)
      | U8 => rw [decAux_u8]; exact emap_ne_deep _ _ (decFixedNat_ne_deep 1 bs)
      | U32 => rw [decAux_u32]; exact emap_ne_deep _ _ (decFixedNat_ne_deep 4 bs)
      | U64 => rw [decAux_u64]; exact emap_ne_deep _ _ (decFixedNat_ne_deep 8 bs)
      | U128 => rw [decAux_u128]; exact emap_ne_deep _ _ (decBig_ne_deep 16 bs)
      | U256 => rw [decAux_u256]; exact emap_ne_deep _ _ (decBig_ne_deep 32 bs)
      | U512 => rw [decAux_u512]; exact emap_ne_deep _ _ (decBig_ne_deep 64 bs)
      | Unit => rw [decAux_unit]; simp
      | String =>
          rw [decAux_string]
          exact ebind_ne_deep _ _ (readN_ne_deep 4 bs)
            (fun p => ebind_ne_deep _ _ (readN_ne_deep (leNat p.1) p.2)
              (fun q => ebind_ne_deep _ _ (utf8Decode_ne_deep q.1) (fun cs => by simp)))
      | Key =>
          cases bs with
          | nil => rw [decAux_key_nil]; simp
          | cons tag r =>
              rw [decAux_key_cons]
              split
              · exact emap_ne_deep _ _ (readN_ne_deep 32 r)
              · split
                · exact emap_ne_deep _ _ (readN_ne_deep 33 r)
                · simp
      | URef =>
          rw [decAux_uref]
          exact ebind_ne_deep _ _ (readN_ne_deep 32 bs)
            (fun p => emap_ne_deep _ _ (decFixedNat_ne_deep 1 p.2))
      | PublicKey =>
          cases bs with
          | nil => rw [decAux_pk_nil]; simp
          | cons alg r =>
              rw [decAux_pk_cons]
              split
              · exact emap_ne_deep _ _ (readN_ne_deep 32 r)
              · split
                · exact emap_ne_deep _ _ (readN_ne_deep 33 r)
                · simp
      | Option t =>
          have hdt : nestDepth t ≤ f := by rw [nestDepth] at hd; omega
          cases bs with
          | nil => rw [decAux_opt_nil]; simp
          | cons b r =>
              cases b with
              | zero => rw [decAux_opt_zero]; simp
              | succ b1 =>
                  cases b1 with
                  | zero => rw [decAux_opt_one]; exact emap_ne_deep _ _ (ih t r hdt)
                  | succ b2 =>
                      rw [show decodeAux (f + 1) (.Option t) ((b2 + 2) :: r)
                        = .error .InvalidTag from rfl]
                      simp
      | List t =>
          have hdt : nestDepth t ≤ f := by rw [nestDepth] at hd; omega
          rw [decAux_list]
          exact ebind_ne_deep _ _ (readN_ne_deep 4 bs)
            (fun p => emap_ne_deep _ _
              (decodeSeq_ne_deep _ (fun bs2 => ih t bs2 hdt) (leNat p.1) p.2))
      | ByteArray n => rw [decAux_bytearray]; exact emap_ne_deep _ _ (readN_ne_deep n bs)
      | Result t e =>
          have hdt : nestDepth t ≤ f ∧ nestDepth e ≤ f := by rw [nestDepth] at hd; omega
          cases bs with
          | nil => rw [decAux_result_nil]; simp
          | cons b r =>
              cases b with
              | zero => rw [decAux_result_zero]; exact emap_ne_deep _ _ (ih e r hdt.2)
              | succ b1 =>
                  cases b1 with
                  | zero => rw [decAux_result_one]; exact emap_ne_deep _ _ (ih t r hdt.1)
                  | succ b2 =>
                      rw [show decodeAux (f + 1) (.Result t e) ((b2 + 2) :: r)
                        = .error .InvalidTag from rfl]
                      simp
      | Map k vt =>
          have hdt : nestDepth k ≤ f ∧ nestDepth vt ≤ f := by rw [nestDepth] at hd; omega
          rw [decAux_map]
          exact ebind_ne_deep _ _ (readN_ne_deep 4 bs)
            (fun p => emap_ne_deep _ _
              (decodeKVSeq_ne_deep _ _ (fun bs2 => ih k bs2 hdt.1)
                (fun bs2 => ih vt bs2 hdt.2) (leNat p.1) p.2))
      | Tuple1 t1 =>
          have hdt : nestDepth t1 ≤ f := by rw [nestDepth] at hd; omega
          rw [decAux_tup1]
          exact emap_ne_deep _ _ (ih t1 bs hdt)
      | Tuple2 t1 t2 =>
          have hdt : nestDepth t1 ≤ f ∧ nestDepth t2 ≤ f := by rw [nestDepth] at hd; omega
          rw [decAux_tup2]
          exact ebind_ne_deep _ _ (ih t1 bs hdt.1)
            (fun p => ebind_ne_deep _ _ (ih t2 p.2 hdt.2) (fun q => by simp))
      | Tuple3 t1 t2 t3 =>
          have hdt : nestDepth t1 ≤ f ∧ nestDepth t2 ≤ f ∧ nestDepth t3 ≤ f := by
            rw [nestDepth] at hd; omega
          rw [decAux_tup3]
          exact ebind_ne_deep _ _ (ih t1 bs hdt.1)
            (fun p => ebind_ne_deep _ _ (ih t2 p.2 hdt.2.1)
              (fun q => ebind_ne_deep _ _ (ih t3 q.2 hdt.2.2) (fun w => by simp)))
      | Any => rw [decAux_any]; simp

/-- C8: the nesting-depth guard.  A descriptor nested beyond the fixed
maximum makes both encode and decode fail with `ExcessiveNestingDepth`
(for every value and every buffer), while for a descriptor within the bound
dispatch completes without the depth error ever occurring. -/
theorem nesting_depth_guard (d : CLType) :
    (MAX_NESTING_DEPTH < nestDepth d →
      (∀ v, encode d v = .error .ExcessiveNestingDepth) ∧
      (∀ bs, decode d bs = .error .ExcessiveNestingDepth)) ∧
    (nestDepth d ≤ MAX_NESTING_DEPTH →
      (∀ v, encode d v ≠ .error .ExcessiveNestingDepth) ∧
      (∀ bs, decode d bs ≠ .error .ExcessiveNestingDepth)) := by
  constructor
  · intro h
    exact ⟨fun v => by rw [encode, if_pos h], fun bs => by rw [decode, if_pos h]⟩
  · intro h
    refine ⟨fun v => ?_, fun bs => ?_⟩
    · rw [encode, if_neg (by omega)]
      exact encodeAux_ne_deep MAX_NESTING_DEPTH d v h
    · rw [decode, if_neg (by omega)]
      exact emap_ne_deep _ _ (decodeAux_ne_deep MAX_NESTING_DEPTH d bs h)

/-! ## Interpreting a query response (spec §6, `how_to_query_a_contract.py`) -/

/-- The `CLValue` object of a state-query response (spec §6):
`{"CLValue": {"bytes": <hex>, "cl_type": <descriptor>, "parsed": <native-as-JSON>}}`.
The node-supplied `parsed` field is an arbitrary JSON payload, modelled as an
opaque string. -/
structure CLValueBody where
  bytes : List Nat
  cl_type : CLType
  parsed : String
deriving DecidableEq

/-- A state-query response as consumed by `_get_contract_data`. -/
structure StateItemResponse where
  CLValue : CLValueBody
deriving DecidableEq

/-- `_get_contract_data` from `src/how_tos/how_to_query_a_contract.py`
(lines 104–110): it queries the chain and returns
`cl_value["CLValue"]["parsed"]` — the node-supplied `parsed` field verbatim,
without decoding `bytes` under `cl_type`. -/
def get_contract_data (cl_value : StateItemResponse) : String :=
  cl_value.CLValue.parsed

/-- Interpreting a response through the codec (spec §6): decode the `bytes`
field under the `cl_type` field; `parsed` is not an input. -/
def decodeContainer (r : StateItemResponse) : Except CLErr CLValue :=
  decode_response r.CLValue.bytes r.CLValue.cl_type

/-- C2 counterexample: two responses with identical `bytes` and `cl_type`
but different `parsed` fields make the visible query helper return
different values — the program's result is the node-supplied `parsed`
field, not a function of `bytes` and `cl_type` alone. -/
theorem get_contract_data_uses_parsed :
    (StateItemResponse.mk ⟨[7], .U8, "7"⟩).CLValue.bytes
        = (StateItemResponse.mk ⟨[7], .U8, "8"⟩).CLValue.bytes ∧
    (StateItemResponse.mk ⟨[7], .U8, "7"⟩).CLValue.cl_type
        = (StateItemResponse.mk ⟨[7], .U8, "8"⟩).CLValue.cl_type ∧
    get_contract_data (StateItemResponse.mk ⟨[7], .U8, "7"⟩)
      ≠ get_contract_data (StateItemResponse.mk ⟨[7], .U8, "8"⟩) := by
  refine ⟨rfl, rfl, ?_⟩
  decide

/-- C2 amended: at the codec level the spec's requirement holds — the
decode path `decode_response(bytes, cl_type)` is a function of the `bytes`
and `cl_type` fields only, so two responses agreeing on those fields decode
identically whatever their `parsed` fields; the visible query helper,
however, returns `parsed` verbatim instead of invoking the codec. -/
theorem decode_response_ignores_parsed (r1 r2 : StateItemResponse)
    (hb : r1.CLValue.bytes = r2.CLValue.bytes)
    (ht : r1.CLValue.cl_type = r2.CLValue.cl_type) :
    decodeContainer r1 = decodeContainer r2 := by
  rw [decodeContainer, decodeContainer, hb, ht]

/-- Witness for the amended C2 at two concrete responses differing only in
`parsed`. -/
theorem decode_response_ignores_parsed_witness :
    (StateItemResponse.mk ⟨[7], .U8, "7"⟩).CLValue.bytes
        = (StateItemResponse.mk ⟨[7], .U8, "not 7"⟩).CLValue.bytes ∧
    (StateItemResponse.mk ⟨[7], .U8, "7"⟩).CLValue.cl_type
        = (StateItemResponse.mk ⟨[7], .U8, "not 7"⟩).CLValue.cl_type ∧
    decodeContainer (StateItemResponse.mk ⟨[7], .U8, "7"⟩)
      = decodeContainer (StateItemResponse.mk ⟨[7], .U8, "not 7"⟩) :=
  ⟨rfl, rfl, decode_response_ignores_parsed _ _ rfl rfl⟩
